import Mathlib

/-!
Shallow embedding of the balance and settlement engine of the tripsplit-web
application (`src/App.tsx`): the pure functions `computeBalances` and
`computeSettlements`, together with the data model they operate on.

JavaScript numbers are modelled as exact rationals (`ℚ`); `Math.round` is
round-half-up `⌊x + 1/2⌋`.  The insertion-ordered JavaScript record
`Record<string, number>` used for the running balances is modelled as an
association list in insertion order.
-/

namespace TripSplit

/-- `Member`: `{id: string, name: string}`. -/
structure Member where
  id : String
  name : String
deriving DecidableEq, Repr

/-- The `splitMode` discriminant: `"equal" | "custom"`. -/
inductive SplitMode where
  | equal
  | custom
deriving DecidableEq, Repr

/-- `Expense` (the fields the engine reads).  `splitMode` and `splitAmounts`
are optional in the TypeScript type; `splitAmounts : Record<string, number>`
is modelled as an association list in insertion order. -/
structure Expense where
  id : String
  amount : ℚ
  paidBy : String
  splitBetween : List String
  splitMode : Option SplitMode
  splitAmounts : Option (List (String × ℚ))
deriving DecidableEq, Repr

/-- The slice of `Group` that `computeBalances` reads. -/
structure Group where
  members : List Member
  expenses : List Expense
deriving DecidableEq, Repr

/-- A derived balance row `{member, balance}`. -/
structure BalanceRow where
  member : Member
  balance : ℚ
deriving DecidableEq, Repr

/-- `Settlement = {from, to, amount}` (`from` is a Lean keyword, hence
`fromMember`/`toMember`). -/
structure Settlement where
  fromMember : Member
  toMember : Member
  amount : ℚ
deriving DecidableEq, Repr

/-- `const roundToCents = (value) => Math.round(value * 100) / 100;`
with JavaScript `Math.round x = ⌊x + 1/2⌋` (round half up). -/
def roundToCents (value : ℚ) : ℚ := (⌊value * 100 + 1/2⌋ : ℤ) / 100

/-! ### The balances record

`const balances: Record<string, number>` — an insertion-ordered map from
member id to rational balance, as an association list. -/

/-- The running balances map. -/
abbrev Balances := List (String × ℚ)

/-- Key lookup: `balances[k]`, with `0` for an absent key (the engine reads a
key only after initialising it, or through `balances[id] || 0`). -/
def bget (b : Balances) (k : String) : ℚ :=
  match b.find? (fun p => p.1 == k) with
  | some p => p.2
  | none => 0

/-- `k in balances`. -/
def bhas (b : Balances) (k : String) : Bool :=
  b.any (fun p => p.1 == k)

/-- `if (!(k in balances)) balances[k] = 0; balances[k] += v;` — add `v` to
key `k`, inserting the key at the end first when absent. -/
def badd (b : Balances) (k : String) (v : ℚ) : Balances :=
  if bhas b k then
    b.map (fun p => if p.1 == k then (p.1, p.2 + v) else p)
  else
    b ++ [(k, v)]

/-- `balances[k] = 0` (the member-initialisation loop). -/
def bset0 (b : Balances) (k : String) : Balances :=
  if bhas b k then
    b.map (fun p => if p.1 == k then (p.1, 0) else p)
  else
    b ++ [(k, 0)]

/-- The keys of the balances record, in insertion order. -/
def bkeys (b : Balances) : List String := b.map (fun p => p.1)

/-- The sum of all tracked balances. -/
def bsum (b : Balances) : ℚ := (b.map (fun p => p.2)).sum

/-! ### computeBalances -/

/-- The `hasCustomSplit` condition of `computeBalances`:
`(expense.splitMode === "custom" || !!expense.splitAmounts) &&
 expense.splitAmounts && Object.keys(expense.splitAmounts).length > 0`. -/
def hasCustomSplit (e : Expense) : Bool :=
  (e.splitMode == some SplitMode.custom || e.splitAmounts.isSome)
    && e.splitAmounts.isSome
    && (e.splitAmounts.getD []).length > 0

/-- The equal-split target list: `splitBetween` when non-empty, else
`[paidBy]` (the `Array.isArray(splitBetween) && splitBetween.length > 0`
test; in the typed model `splitBetween` is always an array). -/
def splitSet (e : Expense) : List String :=
  if e.splitBetween.length > 0 then e.splitBetween else [e.paidBy]

/-- The per-head share `expense.amount / splitCount` with
`splitCount = splitMembers.length || 1`. -/
def share (e : Expense) : ℚ :=
  e.amount / (if (splitSet e).length = 0 then 1 else ((splitSet e).length : ℚ))

/-- One iteration of the `for (const expense of group.expenses)` loop of
`computeBalances`. -/
def applyExpense (b : Balances) (e : Expense) : Balances :=
  if e.paidBy = "" then b
  else
    let b1 := badd b e.paidBy e.amount
    if hasCustomSplit e then
      (e.splitAmounts.getD []).foldl (fun acc kv => badd acc kv.1 (-kv.2)) b1
    else
      (splitSet e).foldl (fun acc m => badd acc m (-(share e))) b1

/-- The balances record after the member-initialisation loop. -/
def initBalances (g : Group) : Balances :=
  g.members.foldl (fun b m => bset0 b m.id) []

/-- The internal balances record after processing every expense. -/
def internalBalances (g : Group) : Balances :=
  g.expenses.foldl applyExpense (initBalances g)

/-- `computeBalances`: one row per member of `group.members`, in order,
with `balance = balances[member.id] || 0`. -/
def computeBalances (g : Group) : List BalanceRow :=
  g.members.map (fun m => ⟨m, bget (internalBalances g) m.id⟩)

/-! ### computeSettlements -/

/-- A cursor entry of the settlement planner: a member together with a
remaining (rounded, non-negative) amount. -/
structure Entry where
  member : Member
  amount : ℚ
deriving DecidableEq, Repr

/-- The creditor list: rows with `balance > 0`, amounts rounded to cents. -/
def creditorsOf (rows : List BalanceRow) : List Entry :=
  (rows.filter (fun r => 0 < r.balance)).map
    (fun r => ⟨r.member, roundToCents r.balance⟩)

/-- The debtor list: rows with `balance < 0`, amounts `roundToCents (|balance|)`. -/
def debtorsOf (rows : List BalanceRow) : List Entry :=
  (rows.filter (fun r => r.balance < 0)).map
    (fun r => ⟨r.member, roundToCents |r.balance|⟩)

/-- The two-cursor matching loop of `computeSettlements`.  Each iteration
takes `payment = min(debtor.amount, creditor.amount)`, emits a settlement
when `payment > 0`, subtracts and re-rounds both remainders, and advances
each cursor whose remainder is `≤ 0.01`.  At least one remainder always
rounds to `0`, so at least one cursor advances each iteration. -/
def settleLoop : List Entry → List Entry → List Settlement
  | [], _ => []
  | _ :: _, [] => []
  | d :: ds, c :: cs =>
    let payment := min d.amount c.amount
    let emitted := if 0 < payment then [⟨d.member, c.member, payment⟩] else []
    let dRem := roundToCents (d.amount - payment)
    let cRem := roundToCents (c.amount - payment)
    if hd : dRem ≤ 1/100 then
      if hc : cRem ≤ 1/100 then
        emitted ++ settleLoop ds cs
      else
        emitted ++ settleLoop ds (⟨c.member, cRem⟩ :: cs)
    else
      if hc : cRem ≤ 1/100 then
        emitted ++ settleLoop (⟨d.member, dRem⟩ :: ds) cs
      else
        emitted ++ settleLoop (⟨d.member, dRem⟩ :: ds) (⟨c.member, cRem⟩ :: cs)
termination_by d c => d.length + c.length
decreasing_by
  · simp only [List.length_cons]; omega
  · simp only [List.length_cons]; omega
  · simp only [List.length_cons]; omega
  · exfalso
    rcases le_total d.amount c.amount with h | h
    · apply hd
      have hmin : d.amount ⊓ c.amount = d.amount := inf_eq_left.mpr h
      unfold dRem payment
      rw [hmin, sub_self]
      norm_num [roundToCents]
    · apply hc
      have hmin : d.amount ⊓ c.amount = c.amount := inf_eq_right.mpr h
      unfold cRem payment
      rw [hmin, sub_self]
      norm_num [roundToCents]

/-- `computeSettlements`. -/
def computeSettlements (rows : List BalanceRow) : List Settlement :=
  settleLoop (debtorsOf rows) (creditorsOf rows)

/-- Iteration count of the matching loop: the same recursion as
`settleLoop`, counting one per `while`-iteration. -/
def settleIters : List Entry → List Entry → Nat
  | [], _ => 0
  | _ :: _, [] => 0
  | d :: ds, c :: cs =>
    let payment := min d.amount c.amount
    let dRem := roundToCents (d.amount - payment)
    let cRem := roundToCents (c.amount - payment)
    if hd : dRem ≤ 1/100 then
      if hc : cRem ≤ 1/100 then
        1 + settleIters ds cs
      else
        1 + settleIters ds (⟨c.member, cRem⟩ :: cs)
    else
      if hc : cRem ≤ 1/100 then
        1 + settleIters (⟨d.member, dRem⟩ :: ds) cs
      else
        1 + settleIters (⟨d.member, dRem⟩ :: ds) (⟨c.member, cRem⟩ :: cs)
termination_by d c => d.length + c.length
decreasing_by
  · simp only [List.length_cons]; omega
  · simp only [List.length_cons]; omega
  · simp only [List.length_cons]; omega
  · exfalso
    rcases le_total d.amount c.amount with h | h
    · apply hd
      have hmin : d.amount ⊓ c.amount = d.amount := inf_eq_left.mpr h
      unfold dRem payment
      rw [hmin, sub_self]
      norm_num [roundToCents]
    · apply hc
      have hmin : d.amount ⊓ c.amount = c.amount := inf_eq_right.mpr h
      unfold cRem payment
      rw [hmin, sub_self]
      norm_num [roundToCents]

/-! ### Derived sums and auxiliary notions used by the statements -/

/-- Total amount of a settlement list. -/
def totalAmt (s : List Settlement) : ℚ := (s.map (fun t => t.amount)).sum

/-- Total amount a member pays out (`from` role) in a settlement list. -/
def outgoing (s : List Settlement) (m : Member) : ℚ :=
  ((s.filter (fun t => t.fromMember == m)).map (fun t => t.amount)).sum

/-- Total amount a member receives (`to` role) in a settlement list. -/
def incoming (s : List Settlement) (m : Member) : ℚ :=
  ((s.filter (fun t => t.toMember == m)).map (fun t => t.amount)).sum

/-- Total of the amounts of a cursor-entry list. -/
def entryTotal (l : List Entry) : ℚ := (l.map (fun e => e.amount)).sum

/-- Total amount carried by a given member's entries in a cursor list. -/
def memTotal (l : List Entry) (m : Member) : ℚ :=
  ((l.filter (fun e => e.member == m)).map (fun e => e.amount)).sum

/-- The member ids whose balances an expense can touch: the payer, and
either the `splitAmounts` keys (custom branch) or the equal-split set. -/
def refIds (e : Expense) : List String :=
  if e.paidBy = "" then []
  else e.paidBy ::
    (if hasCustomSplit e then (e.splitAmounts.getD []).map (fun kv => kv.1)
     else splitSet e)

/-- Sum of the values of a `splitAmounts` record. -/
def saSum (sa : List (String × ℚ)) : ℚ := (sa.map (fun kv => kv.2)).sum

/-- Total debited from id `x` by a `splitAmounts` record. -/
def saDebit (sa : List (String × ℚ)) (x : String) : ℚ :=
  ((sa.filter (fun kv => kv.1 == x)).map (fun kv => kv.2)).sum

/-- An exact multiple of one cent. -/
def CentMult (q : ℚ) : Prop := ∃ n : ℤ, q = n / 100

/-- Well-formed cursor entries: non-negative exact-cent amounts (as produced
by `debtorsOf`/`creditorsOf`). -/
def EntriesOK (l : List Entry) : Prop :=
  ∀ e ∈ l, 0 ≤ e.amount ∧ CentMult e.amount

/-- Sum, over the entries of a cursor list, of the outgoing totals of their
members. -/
def sumOutgoing (s : List Settlement) (l : List Entry) : ℚ :=
  (l.map (fun e => outgoing s e.member)).sum

/-- Sum, over the entries of a cursor list, of the incoming totals of their
members. -/
def sumIncoming (s : List Settlement) (l : List Entry) : ℚ :=
  (l.map (fun e => incoming s e.member)).sum

/-- The split-branch condition as the specification words it: custom mode
*and* a non-empty `splitAmounts` map (to be compared with the source's
`hasCustomSplit`). -/
def specCustomCond (e : Expense) : Prop :=
  e.splitMode = some SplitMode.custom ∧ (e.splitAmounts.getD []).length > 0

/-! ### Concrete inputs for counterexamples and witnesses -/

/-- Concrete members. -/
def mA : Member := ⟨"A", "Alice"⟩

def mB : Member := ⟨"B", "Bob"⟩

def mC : Member := ⟨"C", "Cara"⟩

def mD : Member := ⟨"D", "Dan"⟩

def mE : Member := ⟨"E", "Eve"⟩

/-- C1 counterexample group: an expense paid by an id `"X"` that is not a
member, plus a custom split whose amounts do not sum to the expense amount. -/
def gLeak : Group :=
  ⟨[mA],
   [⟨"e1", 10, "X", ["A"], some SplitMode.equal, none⟩,
    ⟨"e2", 10, "A", ["A"], some SplitMode.custom, some [("A", 3)]⟩]⟩

/-- C3 counterexample expense: `splitMode` is `equal`, yet `splitAmounts` is
present and non-empty. -/
def eEqualButCustom : Expense :=
  ⟨"e", 12, "A", ["A", "B"], some SplitMode.equal, some [("B", 9)]⟩

/-- C3 counterexample group. -/
def gEqualButCustom : Group := ⟨[mA, mB], [eEqualButCustom]⟩

/-- C4 counterexample expense: no `splitMode` at all, yet `splitAmounts` is
present and non-empty. -/
def eNoModeCustom : Expense :=
  ⟨"e", 10, "A", ["A", "B"], none, some [("B", 7)]⟩

/-- C4 counterexample group. -/
def gNoModeCustom : Group := ⟨[mA, mB], [eNoModeCustom]⟩

/-- C5 counterexample group: unknown payer `"X"` with empty `splitBetween`,
so the whole expense falls back onto `"X"` and its tracked balance is `0`. -/
def gUnknownZero : Group :=
  ⟨[mA], [⟨"e1", 10, "X", [], some SplitMode.equal, none⟩]⟩

/-- C2 counterexample rows: balances sum to zero exactly, yet the greedy
loop drops one cent at each of the two creditors and the third debtor
never pays. -/
def rowsDrop : List BalanceRow :=
  [⟨mA, -2/100⟩, ⟨mB, -2/100⟩, ⟨mC, -2/100⟩, ⟨mD, 3/100⟩, ⟨mE, 3/100⟩]

/-- C6 counterexample rows: both balances are within `0.01` of `0`, yet a
settlement is emitted. -/
def rowsCent : List BalanceRow := [⟨mA, 1/100⟩, ⟨mB, -1/100⟩]

/-- Witness rows: `A` owes 10, `B` owes 5, `C` is owed 15. -/
def rowsW : List BalanceRow := [⟨mA, -10⟩, ⟨mB, -5⟩, ⟨mC, 15⟩]

/-- Witness expense: 90 paid by `A`, split equally among `A`, `B`, `C`. -/
def eShare90 : Expense :=
  ⟨"e1", 90, "A", ["A", "B", "C"], some SplitMode.equal, none⟩

/-- Witness expense: 30 paid by `B`, custom split `{C: 30}`. -/
def eCustom30 : Expense :=
  ⟨"e2", 30, "B", ["B", "C"], some SplitMode.custom, some [("C", 30)]⟩

/-- Witness group for the row-shape claim: `B` is a member referenced by no
expense. -/
def gShape : Group :=
  ⟨[mA, mB], [⟨"e1", 10, "A", ["A"], some SplitMode.equal, none⟩]⟩

/-- Witness group: the specification's concrete scenario (expense of 90 paid
by `A` split equally among `A,B,C`, then 30 paid by `B` with custom split
`{C: 30}`). -/
def gW : Group :=
  ⟨[mA, mB, mC],
   [⟨"e1", 90, "A", ["A", "B", "C"], some SplitMode.equal, none⟩,
    ⟨"e2", 30, "B", ["B", "C"], some SplitMode.custom, some [("C", 30)]⟩]⟩

/-! ## Lemmas about the balances record -/

theorem find?_key_some (b : Balances) (x : String) (q : String × ℚ)
    (h : b.find? (fun p => p.1 == x) = some q) : q.1 = x := by
  have := List.find?_some h
  simpa using this

theorem bhas_find?_isSome (b : Balances) (k : String) (h : bhas b k = true) :
    ∃ q, b.find? (fun p => p.1 == k) = some q := by
  have : (b.find? (fun p => p.1 == k)).isSome := by
    rw [List.find?_isSome]
    simp only [bhas, List.any_eq_true] at h
    exact h
  exact Option.isSome_iff_exists.mp this

theorem not_bhas_find?_none (b : Balances) (k : String) (h : bhas b k = false) :
    b.find? (fun p => p.1 == k) = none := by
  rw [List.find?_eq_none]
  intro p hp hpk
  have : bhas b k = true := by
    simp only [bhas, List.any_eq_true]
    exact ⟨p, hp, hpk⟩
  rw [this] at h
  exact Bool.noConfusion h

theorem bhas_iff_mem (b : Balances) (k : String) :
    bhas b k = true ↔ k ∈ bkeys b := by
  simp only [bhas, List.any_eq_true, beq_iff_eq, bkeys, List.mem_map]

theorem bget_eq_zero_of_not_mem (b : Balances) (x : String)
    (h : x ∉ bkeys b) : bget b x = 0 := by
  have hfalse : bhas b x = false := by
    rcases hb : bhas b x
    · rfl
    · exact absurd ((bhas_iff_mem b x).mp hb) h
  rw [bget, not_bhas_find?_none b x hfalse]

theorem badd_of_not_has (b : Balances) (k : String) (v : ℚ)
    (h : bhas b k = false) : badd b k v = b ++ [(k, v)] := by
  simp [badd, h]

theorem bget_badd (b : Balances) (k : String) (v : ℚ) (x : String) :
    bget (badd b k v) x = bget b x + (if x = k then v else 0) := by
  by_cases hb : bhas b k
  · have hcomp : ((fun q : String × ℚ => q.1 == x) ∘
        (fun q => if q.1 == k then (q.1, q.2 + v) else q)) =
        (fun q : String × ℚ => q.1 == x) := by
      funext q
      by_cases hq : q.1 = k <;> simp [hq]
    simp only [badd, hb, if_true, bget, List.find?_map, hcomp]
    rcases hfind : b.find? (fun p => p.1 == x) with _ | q
    · have hxk : ¬ x = k := by
        intro he
        subst he
        rcases bhas_find?_isSome b x hb with ⟨q, hq⟩
        rw [hq] at hfind
        exact Option.noConfusion hfind
      simp [hfind, hxk]
    · have hqx : q.1 = x := find?_key_some b x q hfind
      by_cases hxk : x = k
      · subst hxk
        simp [hfind, hqx]
      · simp [hfind, hqx, hxk]
  · rw [badd_of_not_has b k v (by simpa using hb)]
    simp only [bget, List.find?_append]
    have hnone : b.find? (fun p => p.1 == k) = none :=
      not_bhas_find?_none b k (by simpa using hb)
    by_cases hxk : x = k
    · subst hxk
      simp [hnone, List.find?_cons]
    · rcases hfind : b.find? (fun p => p.1 == x) with _ | q
      · simp [hfind, List.find?_cons, Ne.symm hxk, hxk]
      · simp [hfind, hxk]

theorem map_keyupdate_id (b : Balances) (k : String) (f : ℚ → ℚ)
    (h : bhas b k = false) :
    b.map (fun p => if p.1 == k then (p.1, f p.2) else p) = b := by
  induction b with
  | nil => rfl
  | cons p rest ih =>
    simp only [bhas, List.any_cons, Bool.or_eq_false_iff, beq_eq_false_iff_ne,
      ne_eq] at h
    simp only [List.map_cons]
    rw [ih (by simp [bhas, h.2])]
    simp [h.1]

theorem bkeys_badd (b : Balances) (k : String) (v : ℚ) :
    bkeys (badd b k v) = if bhas b k then bkeys b else bkeys b ++ [k] := by
  by_cases hb : bhas b k
  · simp only [badd, hb, if_true, bkeys, List.map_map]
    congr 1
    funext p
    by_cases hp : p.1 = k <;> simp [hp]
  · simp [badd, hb, bkeys]

theorem bkeys_bset0 (b : Balances) (k : String) :
    bkeys (bset0 b k) = if bhas b k then bkeys b else bkeys b ++ [k] := by
  by_cases hb : bhas b k
  · simp only [bset0, hb, if_true, bkeys, List.map_map]
    congr 1
    funext p
    by_cases hp : p.1 = k <;> simp [hp]
  · simp [bset0, hb, bkeys]

theorem mem_bkeys_badd (b : Balances) (k : String) (v : ℚ) (x : String) :
    x ∈ bkeys (badd b k v) ↔ x ∈ bkeys b ∨ x = k := by
  rw [bkeys_badd]
  by_cases hb : bhas b k
  · simp only [hb, if_true]
    constructor
    · exact Or.inl
    · rintro (h | h)
      · exact h
      · exact h ▸ (bhas_iff_mem b k).mp hb
  · simp [hb]

theorem nodup_bkeys_badd (b : Balances) (k : String) (v : ℚ)
    (h : (bkeys b).Nodup) : (bkeys (badd b k v)).Nodup := by
  rw [bkeys_badd]
  by_cases hb : bhas b k
  · simpa [hb]
  · have hb' : bhas b k = false := by simpa using hb
    simp only [hb', Bool.false_eq_true, if_false]
    rw [List.nodup_append]
    refine ⟨h, List.nodup_singleton k, ?_⟩
    intro a ha hk
    simp only [List.mem_singleton] at hk
    subst hk
    exact (by simpa [hb] using (bhas_iff_mem b a).mpr ha)

theorem nodup_bkeys_bset0 (b : Balances) (k : String)
    (h : (bkeys b).Nodup) : (bkeys (bset0 b k)).Nodup := by
  rw [bkeys_bset0]
  by_cases hb : bhas b k
  · simpa [hb]
  · have hb' : bhas b k = false := by simpa using hb
    simp only [hb', Bool.false_eq_true, if_false]
    rw [List.nodup_append]
    refine ⟨h, List.nodup_singleton k, ?_⟩
    intro a ha hk
    simp only [List.mem_singleton] at hk
    subst hk
    exact (by simpa [hb] using (bhas_iff_mem b a).mpr ha)

theorem bsum_cons (q : String × ℚ) (b : Balances) :
    bsum (q :: b) = q.2 + bsum b := by
  simp [bsum]

theorem bsum_badd (b : Balances) (k : String) (v : ℚ)
    (h : (bkeys b).Nodup) : bsum (badd b k v) = bsum b + v := by
  induction b with
  | nil => simp [badd, bhas, bsum]
  | cons p rest ih =>
    by_cases hpk : p.1 = k
    · have hb : bhas (p :: rest) k = true := by simp [bhas, hpk]
      have hknotin : k ∉ bkeys rest := by
        simp only [bkeys, List.map_cons, List.nodup_cons] at h
        exact hpk ▸ h.1
      have hrest : bhas rest k = false := by
        rcases hr : bhas rest k
        · rfl
        · exact absurd ((bhas_iff_mem rest k).mp hr) hknotin
      have hstep : badd (p :: rest) k v = (p.1, p.2 + v) :: rest := by
        simp only [badd, hb, if_true, List.map_cons]
        rw [map_keyupdate_id rest k (fun q => q + v) hrest]
        simp [hpk]
      rw [hstep, bsum_cons, bsum_cons]
      ring
    · by_cases hrest : bhas rest k
      · have hb : bhas (p :: rest) k = true := by
          simp only [bhas, List.any_cons, Bool.or_eq_true]
          exact Or.inr hrest
        have hnd : (bkeys rest).Nodup := by
          simp only [bkeys, List.map_cons, List.nodup_cons] at h
          exact h.2
        have hstep : badd (p :: rest) k v = p :: badd rest k v := by
          simp only [badd, hb, if_true, hrest, List.map_cons]
          simp [hpk]
        rw [hstep, bsum_cons, ih hnd, bsum_cons]
        ring
      · have hb : bhas (p :: rest) k = false := by
          have h1 : (p.1 == k) = false := by simp [hpk]
          have h2 : bhas rest k = false := by simpa using hrest
          simp only [bhas, List.any_cons, h1, Bool.false_or]
          exact h2
        rw [badd_of_not_has _ _ _ hb]
        simp [bsum]
        ring

/-! ### Fold lemmas for the two debit loops of `applyExpense` -/

theorem saDebit_cons (kv : String × ℚ) (rest : List (String × ℚ)) (x : String) :
    saDebit (kv :: rest) x = (if kv.1 = x then kv.2 else 0) + saDebit rest x := by
  by_cases h : kv.1 = x <;> simp [saDebit, h]

theorem bget_foldl_badd_sa (sa : List (String × ℚ)) (b : Balances) (x : String) :
    bget (sa.foldl (fun acc kv => badd acc kv.1 (-kv.2)) b) x
      = bget b x - saDebit sa x := by
  induction sa generalizing b with
  | nil => simp [saDebit]
  | cons kv rest ih =>
    rw [List.foldl_cons, ih, bget_badd, saDebit_cons]
    by_cases h : x = kv.1
    · rw [if_pos h, if_pos h.symm]
      ring
    · rw [if_neg h, if_neg (fun he => h he.symm)]
      ring

theorem bget_foldl_badd_const (l : List String) (b : Balances) (c : ℚ)
    (x : String) :
    bget (l.foldl (fun acc m => badd acc m c) b) x
      = bget b x + (l.count x : ℚ) * c := by
  induction l generalizing b with
  | nil => simp
  | cons m rest ih =>
    rw [List.foldl_cons, ih, bget_badd, List.count_cons]
    by_cases h : x = m
    · subst h
      simp only [beq_self_eq_true, if_pos rfl]
      push_cast
      ring
    · have h2 : (m == x) = false := by
        simp only [beq_eq_false_iff_ne, ne_eq]
        exact Ne.symm h
      simp only [h2, Bool.false_eq_true, if_false, if_neg h]
      push_cast
      ring

theorem nodup_bkeys_foldl_badd_sa (sa : List (String × ℚ)) (b : Balances)
    (h : (bkeys b).Nodup) :
    (bkeys (sa.foldl (fun acc kv => badd acc kv.1 (-kv.2)) b)).Nodup := by
  induction sa generalizing b with
  | nil => exact h
  | cons kv rest ih => exact ih _ (nodup_bkeys_badd b kv.1 (-kv.2) h)

theorem nodup_bkeys_foldl_badd_const (l : List String) (b : Balances) (c : ℚ)
    (h : (bkeys b).Nodup) :
    (bkeys (l.foldl (fun acc m => badd acc m c) b)).Nodup := by
  induction l generalizing b with
  | nil => exact h
  | cons m rest ih => exact ih _ (nodup_bkeys_badd b m c h)

theorem bsum_foldl_badd_sa (sa : List (String × ℚ)) (b : Balances)
    (h : (bkeys b).Nodup) :
    bsum (sa.foldl (fun acc kv => badd acc kv.1 (-kv.2)) b)
      = bsum b - saSum sa := by
  induction sa generalizing b with
  | nil => simp [saSum]
  | cons kv rest ih =>
    rw [List.foldl_cons, ih _ (nodup_bkeys_badd b kv.1 (-kv.2) h),
      bsum_badd b kv.1 (-kv.2) h]
    simp [saSum]
    ring

theorem bsum_foldl_badd_const (l : List String) (b : Balances) (c : ℚ)
    (h : (bkeys b).Nodup) :
    bsum (l.foldl (fun acc m => badd acc m c) b)
      = bsum b + (l.length : ℚ) * c := by
  induction l generalizing b with
  | nil => simp
  | cons m rest ih =>
    rw [List.foldl_cons, ih _ (nodup_bkeys_badd b m c h), bsum_badd b m c h]
    simp only [List.length_cons]
    push_cast
    ring

theorem mem_bkeys_foldl_badd_sa (sa : List (String × ℚ)) (b : Balances)
    (x : String) :
    x ∈ bkeys (sa.foldl (fun acc kv => badd acc kv.1 (-kv.2)) b)
      ↔ x ∈ bkeys b ∨ x ∈ sa.map (fun kv => kv.1) := by
  induction sa generalizing b with
  | nil => simp
  | cons kv rest ih =>
    rw [List.foldl_cons, ih, mem_bkeys_badd]
    simp only [List.map_cons, List.mem_cons]
    tauto

theorem mem_bkeys_foldl_badd_const (l : List String) (b : Balances) (c : ℚ)
    (x : String) :
    x ∈ bkeys (l.foldl (fun acc m => badd acc m c) b)
      ↔ x ∈ bkeys b ∨ x ∈ l := by
  induction l generalizing b with
  | nil => simp
  | cons m rest ih =>
    rw [List.foldl_cons, ih, mem_bkeys_badd]
    simp only [List.mem_cons]
    tauto

theorem bkeys_foldl_badd_sa_of_sub (sa : List (String × ℚ)) (b : Balances)
    (h : ∀ kv ∈ sa, kv.1 ∈ bkeys b) :
    bkeys (sa.foldl (fun acc kv => badd acc kv.1 (-kv.2)) b) = bkeys b := by
  induction sa generalizing b with
  | nil => rfl
  | cons kv rest ih =>
    rw [List.foldl_cons]
    have hhas : bhas b kv.1 = true :=
      (bhas_iff_mem b kv.1).mpr (h kv (List.mem_cons_self kv rest))
    have hkeys : bkeys (badd b kv.1 (-kv.2)) = bkeys b := by
      rw [bkeys_badd, hhas, if_pos rfl]
    rw [ih _ (fun q hq => hkeys ▸ h q (List.mem_cons_of_mem kv hq)), hkeys]

theorem bkeys_foldl_badd_const_of_sub (l : List String) (b : Balances) (c : ℚ)
    (h : ∀ m ∈ l, m ∈ bkeys b) :
    bkeys (l.foldl (fun acc m => badd acc m c) b) = bkeys b := by
  induction l generalizing b with
  | nil => rfl
  | cons m rest ih =>
    rw [List.foldl_cons]
    have hhas : bhas b m = true :=
      (bhas_iff_mem b m).mpr (h m (List.mem_cons_self m rest))
    have hkeys : bkeys (badd b m c) = bkeys b := by
      rw [bkeys_badd, hhas, if_pos rfl]
    rw [ih _ (fun q hq => hkeys ▸ h q (List.mem_cons_of_mem m hq)), hkeys]

/-! ### Lemmas about `applyExpense` -/

theorem applyExpense_skip (b : Balances) (e : Expense) (h : e.paidBy = "") :
    applyExpense b e = b := by
  simp [applyExpense, h]

theorem splitSet_ne_nil (e : Expense) : splitSet e ≠ [] := by
  unfold splitSet
  by_cases h : e.splitBetween.length > 0
  · simp only [h, if_true]
    intro hnil
    rw [hnil] at h
    simp at h
  · simp [h]

theorem bget_applyExpense_custom (b : Balances) (e : Expense)
    (h : ¬ e.paidBy = "") (hc : hasCustomSplit e = true) (x : String) :
    bget (applyExpense b e) x
      = bget b x + (if x = e.paidBy then e.amount else 0)
          - saDebit (e.splitAmounts.getD []) x := by
  simp only [applyExpense, h, if_false, hc, if_true]
  rw [bget_foldl_badd_sa, bget_badd]

theorem bget_applyExpense_equal (b : Balances) (e : Expense)
    (h : ¬ e.paidBy = "") (hc : hasCustomSplit e = false) (x : String) :
    bget (applyExpense b e) x
      = bget b x + (if x = e.paidBy then e.amount else 0)
          - ((splitSet e).count x : ℚ) * share e := by
  simp only [applyExpense, h, if_false, hc, Bool.false_eq_true]
  rw [bget_foldl_badd_const, bget_badd]
  ring

theorem nodup_bkeys_applyExpense (b : Balances) (e : Expense)
    (h : (bkeys b).Nodup) : (bkeys (applyExpense b e)).Nodup := by
  unfold applyExpense
  by_cases hp : e.paidBy = ""
  · simpa [hp]
  · simp only [hp, if_false]
    by_cases hc : hasCustomSplit e
    · simp only [hc, if_true]
      exact nodup_bkeys_foldl_badd_sa _ _ (nodup_bkeys_badd _ _ _ h)
    · simp only [hc, Bool.false_eq_true, if_false]
      exact nodup_bkeys_foldl_badd_const _ _ _ (nodup_bkeys_badd _ _ _ h)

theorem bsum_applyExpense (b : Balances) (e : Expense)
    (h : (bkeys b).Nodup) :
    bsum (applyExpense b e)
      = if e.paidBy = "" then bsum b
        else if hasCustomSplit e then
          bsum b + e.amount - saSum (e.splitAmounts.getD [])
        else bsum b := by
  by_cases hp : e.paidBy = ""
  · simp [applyExpense, hp]
  · by_cases hc : hasCustomSplit e
    · simp only [applyExpense, hp, if_false, hc, if_true]
      rw [bsum_foldl_badd_sa _ _ (nodup_bkeys_badd _ _ _ h),
        bsum_badd _ _ _ h]
    · simp only [applyExpense, hp, if_false, hc, Bool.false_eq_true]
      rw [bsum_foldl_badd_const _ _ _ (nodup_bkeys_badd _ _ _ h),
        bsum_badd _ _ _ h]
      have hlen0 : (splitSet e).length ≠ 0 := by
        simpa [List.length_eq_zero] using splitSet_ne_nil e
      have hlen : ((splitSet e).length : ℚ) ≠ 0 := by exact_mod_cast hlen0
      unfold share
      rw [if_neg hlen0]
      field_simp
      ring

theorem mem_bkeys_applyExpense (b : Balances) (e : Expense) (x : String) :
    x ∈ bkeys (applyExpense b e) ↔ x ∈ bkeys b ∨ x ∈ refIds e := by
  unfold applyExpense refIds
  by_cases hp : e.paidBy = ""
  · simp [hp]
  · simp only [hp, if_false]
    by_cases hc : hasCustomSplit e
    · simp only [hc, if_true]
      rw [mem_bkeys_foldl_badd_sa, mem_bkeys_badd]
      simp only [List.mem_cons]
      tauto
    · simp only [hc, Bool.false_eq_true, if_false]
      rw [mem_bkeys_foldl_badd_const, mem_bkeys_badd]
      simp only [List.mem_cons]
      tauto

theorem bget_applyExpense_untouched (b : Balances) (e : Expense) (x : String)
    (h : x ∉ refIds e) : bget (applyExpense b e) x = bget b x := by
  by_cases hp : e.paidBy = ""
  · rw [applyExpense_skip b e hp]
  · have hxp : ¬ x = e.paidBy := by
      intro he
      exact h (by simp [refIds, hp, he])
    by_cases hc : hasCustomSplit e
    · rw [bget_applyExpense_custom b e hp hc x]
      have hdeb : saDebit (e.splitAmounts.getD []) x = 0 := by
        have hnot : ∀ kv ∈ e.splitAmounts.getD [], ¬ kv.1 = x := by
          intro kv hkv he
          exact h (by
            simp only [refIds, hp, if_false, hc, if_true, List.mem_cons]
            exact Or.inr (he ▸ List.mem_map_of_mem (fun q => q.1) hkv))
        unfold saDebit
        rw [List.filter_eq_nil_iff.mpr (by
          intro kv hkv
          simp only [beq_iff_eq]
          exact hnot kv hkv)]
        rfl
      rw [hdeb, if_neg hxp]
      ring
    · rw [bget_applyExpense_equal b e hp (by simpa using hc) x]
      have hcount : (splitSet e).count x = 0 := by
        rw [List.count_eq_zero]
        intro hmem
        exact h (by
          simp only [refIds, hp, if_false, hc, Bool.false_eq_true, if_true,
            List.mem_cons]
          exact Or.inr hmem)
      rw [hcount, if_neg hxp]
      push_cast
      ring

/-! ### Lemmas about `initBalances` and `internalBalances` -/

theorem bset0_values (b : Balances) (k : String)
    (h : ∀ p ∈ b, p.2 = 0) : ∀ p ∈ bset0 b k, p.2 = 0 := by
  unfold bset0
  by_cases hb : bhas b k
  · simp only [hb, if_true]
    intro p hp
    rcases List.mem_map.mp hp with ⟨q, hq, he⟩
    by_cases hqk : q.1 = k
    · rw [← he]
      simp [hqk]
    · rw [← he]
      simp only [hqk, beq_iff_eq, if_false]
      exact h q hq
  · simp only [hb, Bool.false_eq_true, if_false]
    intro p hp
    rcases List.mem_append.mp hp with hp | hp
    · exact h p hp
    · simp only [List.mem_singleton] at hp
      rw [hp]

theorem initBalances_values (g : Group) :
    ∀ p ∈ initBalances g, p.2 = 0 := by
  unfold initBalances
  generalize hb : ([] : Balances) = b
  have h0 : ∀ p ∈ b, p.2 = 0 := by rw [← hb]; intro p hp; cases hp
  clear hb
  induction g.members generalizing b with
  | nil => exact h0
  | cons m rest ih => exact ih _ (bset0_values b m.id h0)

theorem bget_of_values_zero (b : Balances) (x : String)
    (h : ∀ p ∈ b, p.2 = 0) : bget b x = 0 := by
  unfold bget
  rcases hfind : b.find? (fun p => p.1 == x) with _ | q
  · rw [hfind]
  · rw [hfind]
    exact h q (List.mem_of_find?_eq_some hfind)

theorem bget_initBalances (g : Group) (x : String) :
    bget (initBalances g) x = 0 :=
  bget_of_values_zero _ x (initBalances_values g)

theorem bsum_initBalances (g : Group) : bsum (initBalances g) = 0 := by
  unfold bsum
  rw [List.sum_eq_zero]
  intro q hq
  rcases List.mem_map.mp hq with ⟨p, hp, he⟩
  rw [← he]
  exact initBalances_values g p hp

theorem mem_bkeys_bset0 (b : Balances) (k : String) (x : String) :
    x ∈ bkeys (bset0 b k) ↔ x ∈ bkeys b ∨ x = k := by
  rw [bkeys_bset0]
  by_cases hb : bhas b k
  · simp only [hb, if_true]
    constructor
    · exact Or.inl
    · rintro (h | h)
      · exact h
      · exact h ▸ (bhas_iff_mem b k).mp hb
  · simp [hb]

theorem nodup_bkeys_initBalances (g : Group) :
    (bkeys (initBalances g)).Nodup := by
  unfold initBalances
  generalize hb : ([] : Balances) = b
  have h0 : (bkeys b).Nodup := by rw [← hb]; exact List.nodup_nil
  clear hb
  induction g.members generalizing b with
  | nil => exact h0
  | cons m rest ih => exact ih _ (nodup_bkeys_bset0 b m.id h0)

theorem mem_bkeys_initBalances (g : Group) (x : String) :
    x ∈ bkeys (initBalances g) ↔ x ∈ g.members.map (fun m => m.id) := by
  unfold initBalances
  have main : ∀ (ms : List Member) (b : Balances),
      x ∈ bkeys (ms.foldl (fun b m => bset0 b m.id) b)
        ↔ x ∈ bkeys b ∨ x ∈ ms.map (fun m => m.id) := by
    intro ms
    induction ms with
    | nil => intro b; simp
    | cons m rest ih =>
      intro b
      rw [List.foldl_cons, ih, mem_bkeys_bset0]
      simp only [List.map_cons, List.mem_cons]
      tauto
  rw [main]
  simp [bkeys]

theorem bkeys_foldl_bset0 (ms : List Member) (b : Balances)
    (hnd : (ms.map (fun m => m.id)).Nodup)
    (hdis : ∀ m ∈ ms, m.id ∉ bkeys b) :
    bkeys (ms.foldl (fun b m => bset0 b m.id) b)
      = bkeys b ++ ms.map (fun m => m.id) := by
  induction ms generalizing b with
  | nil => simp
  | cons m rest ih =>
    rw [List.foldl_cons]
    have hhasf : bhas b m.id = false := by
      rcases hh : bhas b m.id
      · rfl
      · exact absurd ((bhas_iff_mem b m.id).mp hh)
          (hdis m (List.mem_cons_self m rest))
    have hkeys : bkeys (bset0 b m.id) = bkeys b ++ [m.id] := by
      rw [bkeys_bset0, hhasf]
      simp
    have hndr : (rest.map (fun m => m.id)).Nodup := by
      simp only [List.map_cons, List.nodup_cons] at hnd
      exact hnd.2
    have hmid : m.id ∉ rest.map (fun q => q.id) := by
      simp only [List.map_cons, List.nodup_cons] at hnd
      exact hnd.1
    rw [ih _ hndr (by
      intro q hq
      rw [hkeys]
      intro hmem
      rcases List.mem_append.mp hmem with hmem | hmem
      · exact hdis q (List.mem_cons_of_mem m hq) hmem
      · simp only [List.mem_singleton] at hmem
        exact hmid (hmem ▸ List.mem_map_of_mem (fun q => q.id) hq)), hkeys]
    simp

theorem bkeys_initBalances_eq (g : Group)
    (hnd : (g.members.map (fun m => m.id)).Nodup) :
    bkeys (initBalances g) = g.members.map (fun m => m.id) := by
  unfold initBalances
  rw [bkeys_foldl_bset0 g.members [] hnd (by intro m hm h; cases h)]
  rfl

theorem nodup_bkeys_internal (g : Group) :
    (bkeys (internalBalances g)).Nodup := by
  unfold internalBalances
  generalize hb : initBalances g = b
  have h0 : (bkeys b).Nodup := hb ▸ nodup_bkeys_initBalances g
  clear hb
  induction g.expenses generalizing b with
  | nil => exact h0
  | cons e rest ih => exact ih _ (nodup_bkeys_applyExpense b e h0)

theorem bsum_foldl_applyExpense (es : List Expense) (b : Balances)
    (hnd : (bkeys b).Nodup)
    (hcu : ∀ e ∈ es, hasCustomSplit e = true →
      saSum (e.splitAmounts.getD []) = e.amount) :
    bsum (es.foldl applyExpense b) = bsum b := by
  induction es generalizing b with
  | nil => rfl
  | cons e rest ih =>
    rw [List.foldl_cons, ih _ (nodup_bkeys_applyExpense b e hnd)
      (fun q hq => hcu q (List.mem_cons_of_mem e hq))]
    rw [bsum_applyExpense b e hnd]
    by_cases hp : e.paidBy = ""
    · simp [hp]
    · by_cases hc : hasCustomSplit e
      · simp only [hp, if_false, hc, if_true]
        rw [hcu e (List.mem_cons_self e rest) hc]
        ring
      · simp [hp, hc]

theorem bsum_internal (g : Group)
    (hcu : ∀ e ∈ g.expenses, hasCustomSplit e = true →
      saSum (e.splitAmounts.getD []) = e.amount) :
    bsum (internalBalances g) = 0 := by
  unfold internalBalances
  rw [bsum_foldl_applyExpense g.expenses (initBalances g)
    (nodup_bkeys_initBalances g) hcu, bsum_initBalances]

theorem bkeys_applyExpense_of_sub (b : Balances) (e : Expense)
    (h : ∀ x ∈ refIds e, x ∈ bkeys b) :
    bkeys (applyExpense b e) = bkeys b := by
  by_cases hp : e.paidBy = ""
  · rw [applyExpense_skip b e hp]
  · have hpay : e.paidBy ∈ bkeys b := h e.paidBy (by simp [refIds, hp])
    have hkeys1 : bkeys (badd b e.paidBy e.amount) = bkeys b := by
      rw [bkeys_badd, (bhas_iff_mem b e.paidBy).mpr hpay, if_pos rfl]
    by_cases hc : hasCustomSplit e
    · simp only [applyExpense, hp, if_false, hc, if_true]
      have hsub : ∀ kv ∈ e.splitAmounts.getD [],
          kv.1 ∈ bkeys (badd b e.paidBy e.amount) := by
        intro kv hkv
        rw [hkeys1]
        apply h kv.1
        simp only [refIds, hp, if_false, hc, if_true, List.mem_cons]
        exact Or.inr (List.mem_map_of_mem (fun q => q.1) hkv)
      rw [bkeys_foldl_badd_sa_of_sub _ _ hsub, hkeys1]
    · simp only [applyExpense, hp, if_false, hc, Bool.false_eq_true, if_false]
      have hsub : ∀ m ∈ splitSet e,
          m ∈ bkeys (badd b e.paidBy e.amount) := by
        intro m hm
        rw [hkeys1]
        apply h m
        simp only [refIds, hp, if_false, hc, Bool.false_eq_true, if_false,
          List.mem_cons]
        exact Or.inr hm
      rw [bkeys_foldl_badd_const_of_sub _ _ _ hsub, hkeys1]

theorem bkeys_foldl_applyExpense_of_closed (es : List Expense)
    (ks : List String) :
    ∀ b : Balances, bkeys b = ks →
      (∀ e ∈ es, ∀ x ∈ refIds e, x ∈ ks) →
      bkeys (es.foldl applyExpense b) = ks := by
  induction es with
  | nil =>
    intro b hkeys _
    exact hkeys
  | cons e rest ih =>
    intro b hkeys hcl
    rw [List.foldl_cons]
    have hstep : bkeys (applyExpense b e) = bkeys b := by
      apply bkeys_applyExpense_of_sub
      intro x hx
      rw [hkeys]
      exact hcl e (List.mem_cons_self e rest) x hx
    exact ih _ (hstep.trans hkeys)
      (fun q hq => hcl q (List.mem_cons_of_mem e hq))

theorem bkeys_internal_of_closed (g : Group)
    (hcl : ∀ e ∈ g.expenses, ∀ x ∈ refIds e, x ∈ g.members.map (fun m => m.id))
    (hnd : (g.members.map (fun m => m.id)).Nodup) :
    bkeys (internalBalances g) = g.members.map (fun m => m.id) := by
  unfold internalBalances
  exact bkeys_foldl_applyExpense_of_closed g.expenses _ (initBalances g)
    (bkeys_initBalances_eq g hnd) hcl

theorem bget_cons_head (p : String × ℚ) (rest : Balances) :
    bget (p :: rest) p.1 = p.2 := by
  simp [bget, List.find?_cons]

theorem bget_cons_ne (p : String × ℚ) (rest : Balances) (x : String)
    (h : ¬ p.1 = x) : bget (p :: rest) x = bget rest x := by
  simp [bget, List.find?_cons, h]

theorem sum_bget_bkeys (b : Balances) (h : (bkeys b).Nodup) :
    ((bkeys b).map (fun k => bget b k)).sum = bsum b := by
  induction b with
  | nil => rfl
  | cons p rest ih =>
    simp only [bkeys, List.map_cons, List.nodup_cons] at h
    have hhead : bget (p :: rest) p.1 = p.2 := bget_cons_head p rest
    have htail : (bkeys rest).map (fun k => bget (p :: rest) k)
        = (bkeys rest).map (fun k => bget rest k) := by
      apply List.map_congr_left
      intro k hk
      exact bget_cons_ne p rest k (fun he => h.1 (he ▸ hk))
    simp only [bkeys, List.map_cons, List.sum_cons]
    rw [hhead]
    have := ih h.2
    simp only [bkeys] at this htail
    rw [htail, this, bsum_cons]

theorem bget_internal_untouched (g : Group) (x : String)
    (hm : ∀ e ∈ g.expenses, x ∉ refIds e) :
    bget (internalBalances g) x = 0 := by
  unfold internalBalances
  have main : ∀ (es : List Expense) (b : Balances),
      (∀ e ∈ es, x ∉ refIds e) →
      bget (es.foldl applyExpense b) x = bget b x := by
    intro es
    induction es with
    | nil => intro b _; rfl
    | cons e rest ih =>
      intro b hb
      rw [List.foldl_cons,
        ih _ (fun q hq => hb q (List.mem_cons_of_mem e hq)),
        bget_applyExpense_untouched b e x (hb e (List.mem_cons_self e rest))]
  rw [main g.expenses (initBalances g) hm, bget_initBalances]

/-! ## Lemmas about `roundToCents` and cursor entries -/

theorem roundToCents_zero : roundToCents 0 = 0 := by
  norm_num [roundToCents]

theorem roundToCents_centMult (q : ℚ) : CentMult (roundToCents q) :=
  ⟨⌊q * 100 + 1/2⌋, rfl⟩

theorem roundToCents_eq_self (q : ℚ) (h : CentMult q) : roundToCents q = q := by
  rcases h with ⟨n, rfl⟩
  unfold roundToCents
  have h100 : ((n : ℚ) / 100) * 100 = (n : ℚ) := by field_simp
  rw [h100]
  have hfloor : ⌊(n : ℚ) + 1/2⌋ = n := by
    rw [Int.floor_int_add]
    norm_num
  rw [hfloor]

theorem roundToCents_nonneg (q : ℚ) (h : 0 ≤ q) : 0 ≤ roundToCents q := by
  unfold roundToCents
  have : (0 : ℤ) ≤ ⌊q * 100 + 1/2⌋ := by
    apply Int.floor_nonneg.mpr
    positivity
  positivity

theorem roundToCents_eq_zero_of_small (q : ℚ) (h0 : 0 ≤ q) (h : q < 1/200) :
    roundToCents q = 0 := by
  unfold roundToCents
  have hfloor : ⌊q * 100 + 1/2⌋ = 0 := by
    apply Int.floor_eq_zero_iff.mpr
    rw [Set.mem_Ico]
    constructor
    · positivity
    · linarith
  rw [hfloor]
  norm_num

theorem centMult_sub (a b : ℚ) (ha : CentMult a) (hb : CentMult b) :
    CentMult (a - b) := by
  rcases ha with ⟨n, rfl⟩
  rcases hb with ⟨m, rfl⟩
  refine ⟨n - m, ?_⟩
  push_cast
  ring

theorem centMult_min (a b : ℚ) (ha : CentMult a) (hb : CentMult b) :
    CentMult (min a b) := by
  rcases le_total a b with h | h
  · rw [min_eq_left h]; exact ha
  · rw [min_eq_right h]; exact hb

theorem entriesOK_cons (e : Entry) (l : List Entry) :
    EntriesOK (e :: l) ↔ (0 ≤ e.amount ∧ CentMult e.amount) ∧ EntriesOK l := by
  unfold EntriesOK
  constructor
  · intro h
    exact ⟨h e (List.mem_cons_self e l), fun q hq => h q (List.mem_cons_of_mem e hq)⟩
  · rintro ⟨he, hl⟩ q hq
    rcases List.mem_cons.mp hq with h | h
    · rw [h]; exact he
    · exact hl q h

theorem entriesOK_debtorsOf (rows : List BalanceRow) :
    EntriesOK (debtorsOf rows) := by
  intro e he
  unfold debtorsOf at he
  rcases List.mem_map.mp he with ⟨r, hr, hre⟩
  rw [← hre]
  exact ⟨roundToCents_nonneg _ (abs_nonneg _), roundToCents_centMult _⟩

theorem entriesOK_creditorsOf (rows : List BalanceRow) :
    EntriesOK (creditorsOf rows) := by
  intro e he
  unfold creditorsOf at he
  rcases List.mem_map.mp he with ⟨r, hr, hre⟩
  rw [← hre]
  refine ⟨roundToCents_nonneg _ ?_, roundToCents_centMult _⟩
  exact le_of_lt (of_decide_eq_true (List.mem_filter.mp hr).2)

theorem entryTotal_nonneg (l : List Entry) (h : EntriesOK l) :
    0 ≤ entryTotal l := by
  unfold entryTotal
  apply List.sum_nonneg
  intro q hq
  rcases List.mem_map.mp hq with ⟨e, he, hqe⟩
  rw [← hqe]
  exact (h e he).1

theorem memTotal_nonneg (l : List Entry) (m : Member) (h : EntriesOK l) :
    0 ≤ memTotal l m := by
  unfold memTotal
  apply List.sum_nonneg
  intro q hq
  rcases List.mem_map.mp hq with ⟨e, he, hqe⟩
  rw [← hqe]
  exact (h e (List.mem_of_mem_filter he)).1

/-! ## Unfolding lemmas for the settlement loop -/

theorem settleLoop_nil_left (c : List Entry) : settleLoop [] c = [] := by
  rw [settleLoop]

theorem settleLoop_nil_right (d : Entry) (ds : List Entry) :
    settleLoop (d :: ds) [] = [] := by
  rw [settleLoop]

theorem settleLoop_cons_eq (d c : Entry) (ds cs : List Entry) :
    settleLoop (d :: ds) (c :: cs) =
      (if 0 < min d.amount c.amount
        then [⟨d.member, c.member, min d.amount c.amount⟩] else []) ++
      (if roundToCents (d.amount - min d.amount c.amount) ≤ 1/100 then
        if roundToCents (c.amount - min d.amount c.amount) ≤ 1/100 then
          settleLoop ds cs
        else
          settleLoop ds
            (⟨c.member, roundToCents (c.amount - min d.amount c.amount)⟩ :: cs)
      else
        if roundToCents (c.amount - min d.amount c.amount) ≤ 1/100 then
          settleLoop
            (⟨d.member, roundToCents (d.amount - min d.amount c.amount)⟩ :: ds)
            cs
        else
          settleLoop
            (⟨d.member, roundToCents (d.amount - min d.amount c.amount)⟩ :: ds)
            (⟨c.member, roundToCents (c.amount - min d.amount c.amount)⟩ :: cs)) := by
  rw [settleLoop]
  split_ifs <;> rfl

theorem settleLoop_step_both (d c : Entry) (ds cs : List Entry)
    (hd : roundToCents (d.amount - min d.amount c.amount) ≤ 1/100)
    (hc : roundToCents (c.amount - min d.amount c.amount) ≤ 1/100) :
    settleLoop (d :: ds) (c :: cs) =
      (if 0 < min d.amount c.amount
        then [⟨d.member, c.member, min d.amount c.amount⟩] else []) ++
      settleLoop ds cs := by
  rw [settleLoop_cons_eq]
  congr 1
  rw [if_pos hd, if_pos hc]

theorem settleLoop_step_dAdv (d c : Entry) (ds cs : List Entry)
    (hd : roundToCents (d.amount - min d.amount c.amount) ≤ 1/100)
    (hc : ¬ roundToCents (c.amount - min d.amount c.amount) ≤ 1/100) :
    settleLoop (d :: ds) (c :: cs) =
      (if 0 < min d.amount c.amount
        then [⟨d.member, c.member, min d.amount c.amount⟩] else []) ++
      settleLoop ds
        (⟨c.member, roundToCents (c.amount - min d.amount c.amount)⟩ :: cs) := by
  rw [settleLoop_cons_eq]
  congr 1
  rw [if_pos hd, if_neg hc]

theorem settleLoop_step_cAdv (d c : Entry) (ds cs : List Entry)
    (hd : ¬ roundToCents (d.amount - min d.amount c.amount) ≤ 1/100)
    (hc : roundToCents (c.amount - min d.amount c.amount) ≤ 1/100) :
    settleLoop (d :: ds) (c :: cs) =
      (if 0 < min d.amount c.amount
        then [⟨d.member, c.member, min d.amount c.amount⟩] else []) ++
      settleLoop
        (⟨d.member, roundToCents (d.amount - min d.amount c.amount)⟩ :: ds)
        cs := by
  rw [settleLoop_cons_eq]
  congr 1
  rw [if_neg hd, if_pos hc]

theorem settleIters_nil_left (c : List Entry) : settleIters [] c = 0 := by
  rw [settleIters]

theorem settleIters_nil_right (d : Entry) (ds : List Entry) :
    settleIters (d :: ds) [] = 0 := by
  rw [settleIters]

theorem settleIters_cons_eq (d c : Entry) (ds cs : List Entry) :
    settleIters (d :: ds) (c :: cs) =
      (if roundToCents (d.amount - min d.amount c.amount) ≤ 1/100 then
        if roundToCents (c.amount - min d.amount c.amount) ≤ 1/100 then
          1 + settleIters ds cs
        else
          1 + settleIters ds
            (⟨c.member, roundToCents (c.amount - min d.amount c.amount)⟩ :: cs)
      else
        if roundToCents (c.amount - min d.amount c.amount) ≤ 1/100 then
          1 + settleIters
            (⟨d.member, roundToCents (d.amount - min d.amount c.amount)⟩ :: ds)
            cs
        else
          1 + settleIters
            (⟨d.member, roundToCents (d.amount - min d.amount c.amount)⟩ :: ds)
            (⟨c.member, roundToCents (c.amount - min d.amount c.amount)⟩ :: cs)) := by
  rw [settleIters]
  split_ifs <;> rfl

theorem settle_branch_absurd (d c : Entry)
    (hd : ¬ roundToCents (d.amount - min d.amount c.amount) ≤ 1/100)
    (hc : ¬ roundToCents (c.amount - min d.amount c.amount) ≤ 1/100) :
    False := by
  rcases le_total d.amount c.amount with h | h
  · apply hd
    rw [min_eq_left h, sub_self, roundToCents_zero]
    norm_num
  · apply hc
    rw [min_eq_right h, sub_self, roundToCents_zero]
    norm_num

/-! ## Basic algebra of settlement lists -/

theorem totalAmt_nil : totalAmt [] = 0 := rfl

theorem totalAmt_cons (t : Settlement) (s : List Settlement) :
    totalAmt (t :: s) = t.amount + totalAmt s := by
  simp [totalAmt]

theorem outgoing_nil (m : Member) : outgoing [] m = 0 := rfl

theorem outgoing_cons (t : Settlement) (s : List Settlement) (m : Member) :
    outgoing (t :: s) m = (if t.fromMember = m then t.amount else 0)
      + outgoing s m := by
  by_cases h : t.fromMember = m <;> simp [outgoing, h]

theorem incoming_nil (m : Member) : incoming [] m = 0 := rfl

theorem incoming_cons (t : Settlement) (s : List Settlement) (m : Member) :
    incoming (t :: s) m = (if t.toMember = m then t.amount else 0)
      + incoming s m := by
  by_cases h : t.toMember = m <;> simp [incoming, h]

theorem totalAmt_emit (dm cm : Member) (p : ℚ) (hp : 0 ≤ p)
    (s : List Settlement) :
    totalAmt ((if 0 < p then [⟨dm, cm, p⟩] else []) ++ s)
      = p + totalAmt s := by
  by_cases h : 0 < p
  · simp [totalAmt, h]
  · have hz : p = 0 := le_antisymm (not_lt.mp h) hp
    simp [totalAmt, h, hz]

theorem outgoing_emit (dm cm m : Member) (p : ℚ) (hp : 0 ≤ p)
    (s : List Settlement) :
    outgoing ((if 0 < p then [⟨dm, cm, p⟩] else []) ++ s) m
      = (if dm = m then p else 0) + outgoing s m := by
  by_cases h : 0 < p
  · rw [if_pos h]
    show outgoing (⟨dm, cm, p⟩ :: s) m = _
    rw [outgoing_cons]
  · have hz : p = 0 := le_antisymm (not_lt.mp h) hp
    rw [if_neg h, List.nil_append, hz, ite_self, zero_add]

theorem incoming_emit (dm cm m : Member) (p : ℚ) (hp : 0 ≤ p)
    (s : List Settlement) :
    incoming ((if 0 < p then [⟨dm, cm, p⟩] else []) ++ s) m
      = (if cm = m then p else 0) + incoming s m := by
  by_cases h : 0 < p
  · rw [if_pos h]
    show incoming (⟨dm, cm, p⟩ :: s) m = _
    rw [incoming_cons]
  · have hz : p = 0 := le_antisymm (not_lt.mp h) hp
    rw [if_neg h, List.nil_append, hz, ite_self, zero_add]

theorem memTotal_nil (m : Member) : memTotal [] m = 0 := rfl

theorem memTotal_cons (e : Entry) (l : List Entry) (m : Member) :
    memTotal (e :: l) m = (if e.member = m then e.amount else 0)
      + memTotal l m := by
  by_cases h : e.member = m <;> simp [memTotal, h]

theorem entryTotal_nil : entryTotal [] = 0 := rfl

theorem entryTotal_cons (e : Entry) (l : List Entry) :
    entryTotal (e :: l) = e.amount + entryTotal l := by
  simp [entryTotal]

/-! ## Structural properties of the settlement loop -/

theorem settleLoop_roles (d c : List Entry) :
    ∀ s ∈ settleLoop d c,
      s.fromMember ∈ d.map (fun e => e.member) ∧
      s.toMember ∈ c.map (fun e => e.member) ∧ 0 < s.amount := by
  induction d, c using settleLoop.induct with
  | case1 c =>
    rw [settleLoop_nil_left]
    intro s hs
    cases hs
  | case2 d ds =>
    rw [settleLoop_nil_right]
    intro s hs
    cases hs
  | case3 d ds c cs payment dRem cRem hd hc ih =>
    rw [settleLoop_step_both d c ds cs (by exact hd) (by exact hc)]
    intro s hs
    rcases List.mem_append.mp hs with hs | hs
    · by_cases hp : 0 < min d.amount c.amount
      · rw [if_pos hp, List.mem_singleton] at hs
        subst hs
        exact ⟨by simp, by simp, hp⟩
      · rw [if_neg hp] at hs
        cases hs
    · rcases ih s hs with ⟨h1, h2, h3⟩
      exact ⟨by simp only [List.map_cons, List.mem_cons]; exact Or.inr h1,
        by simp only [List.map_cons, List.mem_cons]; exact Or.inr h2, h3⟩
  | case4 d ds c cs payment dRem cRem hd hc ih =>
    rw [settleLoop_step_dAdv d c ds cs (by exact hd) (by exact hc)]
    intro s hs
    rcases List.mem_append.mp hs with hs | hs
    · by_cases hp : 0 < min d.amount c.amount
      · rw [if_pos hp, List.mem_singleton] at hs
        subst hs
        exact ⟨by simp, by simp, hp⟩
      · rw [if_neg hp] at hs
        cases hs
    · rcases ih s hs with ⟨h1, h2, h3⟩
      refine ⟨by simp only [List.map_cons, List.mem_cons]; exact Or.inr h1, ?_, h3⟩
      simp only [List.map_cons, List.mem_cons] at h2 ⊢
      exact h2
  | case5 d ds c cs payment dRem cRem hd hc ih =>
    rw [settleLoop_step_cAdv d c ds cs (by exact hd) (by exact hc)]
    intro s hs
    rcases List.mem_append.mp hs with hs | hs
    · by_cases hp : 0 < min d.amount c.amount
      · rw [if_pos hp, List.mem_singleton] at hs
        subst hs
        exact ⟨by simp, by simp, hp⟩
      · rw [if_neg hp] at hs
        cases hs
    · rcases ih s hs with ⟨h1, h2, h3⟩
      refine ⟨?_, by simp only [List.map_cons, List.mem_cons]; exact Or.inr h2, h3⟩
      simp only [List.map_cons, List.mem_cons] at h1 ⊢
      exact h1
  | case6 d ds c cs payment dRem cRem hd hc ih =>
    exact absurd (settle_branch_absurd d c (by exact hd) (by exact hc)) not_false

theorem settleLoop_all_zero (d c : List Entry) :
    (∀ e ∈ d, e.amount = 0) → (∀ e ∈ c, e.amount = 0) →
    settleLoop d c = [] := by
  induction d, c using settleLoop.induct with
  | case1 c =>
    intro _ _
    rw [settleLoop_nil_left]
  | case2 d ds =>
    intro _ _
    rw [settleLoop_nil_right]
  | case3 d ds c cs payment dRem cRem hd hc ih =>
    intro hzd hzc
    rw [settleLoop_step_both d c ds cs (by exact hd) (by exact hc)]
    have hd0 : d.amount = 0 := hzd d (List.mem_cons_self d ds)
    have hc0 : c.amount = 0 := hzc c (List.mem_cons_self c cs)
    rw [ih (fun e he => hzd e (List.mem_cons_of_mem d he))
      (fun e he => hzc e (List.mem_cons_of_mem c he))]
    rw [if_neg (by rw [hd0, hc0]; norm_num)]
    rfl
  | case4 d ds c cs payment dRem cRem hd hc ih =>
    intro hzd hzc
    exfalso
    apply hc
    show roundToCents (c.amount - min d.amount c.amount) ≤ 1/100
    have hd0 : d.amount = 0 := hzd d (List.mem_cons_self d ds)
    have hc0 : c.amount = 0 := hzc c (List.mem_cons_self c cs)
    rw [hd0, hc0]
    norm_num [roundToCents_zero]
  | case5 d ds c cs payment dRem cRem hd hc ih =>
    intro hzd hzc
    exfalso
    apply hd
    show roundToCents (d.amount - min d.amount c.amount) ≤ 1/100
    have hd0 : d.amount = 0 := hzd d (List.mem_cons_self d ds)
    have hc0 : c.amount = 0 := hzc c (List.mem_cons_self c cs)
    rw [hd0, hc0]
    norm_num [roundToCents_zero]
  | case6 d ds c cs payment dRem cRem hd hc ih =>
    intro _ _
    exact absurd (settle_branch_absurd d c (by exact hd) (by exact hc)) not_false

theorem settleLoop_length_le (d c : List Entry) :
    (settleLoop d c).length ≤ d.length + c.length - 1 := by
  have emitlen : ∀ (dm cm : Member) (p : ℚ),
      (if 0 < p then [(⟨dm, cm, p⟩ : Settlement)] else []).length ≤ 1 := by
    intro dm cm p
    by_cases h : 0 < p <;> simp [h]
  induction d, c using settleLoop.induct with
  | case1 c =>
    rw [settleLoop_nil_left]
    simp
  | case2 d ds =>
    rw [settleLoop_nil_right]
    simp
  | case3 d ds c cs payment dRem cRem hd hc ih =>
    rw [settleLoop_step_both d c ds cs (by exact hd) (by exact hc)]
    rw [List.length_append]
    have h1 := emitlen d.member c.member (min d.amount c.amount)
    simp only [List.length_cons]
    omega
  | case4 d ds c cs payment dRem cRem hd hc ih =>
    rw [settleLoop_step_dAdv d c ds cs (by exact hd) (by exact hc)]
    rw [List.length_append]
    have h1 := emitlen d.member c.member (min d.amount c.amount)
    have ih2 : (settleLoop ds
        (⟨c.member, roundToCents (c.amount - min d.amount c.amount)⟩ :: cs)).length
        ≤ ds.length + (cs.length + 1) - 1 := ih
    simp only [List.length_cons]
    omega
  | case5 d ds c cs payment dRem cRem hd hc ih =>
    rw [settleLoop_step_cAdv d c ds cs (by exact hd) (by exact hc)]
    rw [List.length_append]
    have h1 := emitlen d.member c.member (min d.amount c.amount)
    have ih2 : (settleLoop
        (⟨d.member, roundToCents (d.amount - min d.amount c.amount)⟩ :: ds)
        cs).length ≤ (ds.length + 1) + cs.length - 1 := ih
    simp only [List.length_cons]
    omega
  | case6 d ds c cs payment dRem cRem hd hc ih =>
    exact absurd (settle_branch_absurd d c (by exact hd) (by exact hc)) not_false

theorem settleIters_le (d c : List Entry) :
    settleIters d c ≤ d.length + c.length := by
  induction d, c using settleIters.induct with
  | case1 c =>
    rw [settleIters_nil_left]
    simp
  | case2 d ds =>
    rw [settleIters_nil_right]
    simp
  | case3 d ds c cs payment dRem cRem hd hc ih =>
    rw [settleIters_cons_eq, if_pos (by exact hd), if_pos (by exact hc)]
    simp only [List.length_cons]
    omega
  | case4 d ds c cs payment dRem cRem hd hc ih =>
    rw [settleIters_cons_eq, if_pos (by exact hd), if_neg (by exact hc)]
    have ih2 : settleIters ds
        (⟨c.member, roundToCents (c.amount - min d.amount c.amount)⟩ :: cs)
        ≤ ds.length + (cs.length + 1) := ih
    simp only [List.length_cons]
    omega
  | case5 d ds c cs payment dRem cRem hd hc ih =>
    rw [settleIters_cons_eq, if_neg (by exact hd), if_pos (by exact hc)]
    have ih2 : settleIters
        (⟨d.member, roundToCents (d.amount - min d.amount c.amount)⟩ :: ds)
        cs ≤ (ds.length + 1) + cs.length := ih
    simp only [List.length_cons]
    omega
  | case6 d ds c cs payment dRem cRem hd hc ih =>
    exact absurd (settle_branch_absurd d c (by exact hd) (by exact hc)) not_false

/-! ## Conservation properties of the settlement loop -/

theorem settleLoop_outgoing_le (d c : List Entry) (m : Member) :
    EntriesOK d → EntriesOK c →
    outgoing (settleLoop d c) m ≤ memTotal d m := by
  induction d, c using settleLoop.induct with
  | case1 c =>
    intro _ _
    rw [settleLoop_nil_left, memTotal_nil]
    exact le_of_eq (outgoing_nil m)
  | case2 d ds =>
    intro hOKd _
    rw [settleLoop_nil_right]
    rw [show outgoing [] m = 0 from rfl]
    exact memTotal_nonneg _ m hOKd
  | case3 d ds c cs payment dRem cRem hd hc ih =>
    intro hOKd hOKc
    rcases (entriesOK_cons d ds).mp hOKd with ⟨⟨h0d, hmd⟩, hOKds⟩
    rcases (entriesOK_cons c cs).mp hOKc with ⟨⟨h0c, hmc⟩, hOKcs⟩
    rw [settleLoop_step_both d c ds cs (by exact hd) (by exact hc),
      outgoing_emit _ _ _ _ (le_min h0d h0c), memTotal_cons]
    have hrec : outgoing (settleLoop ds cs) m ≤ memTotal ds m := ih hOKds hOKcs
    by_cases hm : d.member = m
    · rw [if_pos hm, if_pos hm]
      exact add_le_add (min_le_left _ _) hrec
    · rw [if_neg hm, if_neg hm]
      simpa using hrec
  | case4 d ds c cs payment dRem cRem hd hc ih =>
    intro hOKd hOKc
    rcases (entriesOK_cons d ds).mp hOKd with ⟨⟨h0d, hmd⟩, hOKds⟩
    rcases (entriesOK_cons c cs).mp hOKc with ⟨⟨h0c, hmc⟩, hOKcs⟩
    rw [settleLoop_step_dAdv d c ds cs (by exact hd) (by exact hc),
      outgoing_emit _ _ _ _ (le_min h0d h0c), memTotal_cons]
    have hOKc2 : EntriesOK
        (⟨c.member, roundToCents (c.amount - min d.amount c.amount)⟩ :: cs) :=
      (entriesOK_cons _ _).mpr
        ⟨⟨roundToCents_nonneg _ (sub_nonneg.mpr (min_le_right _ _)),
          roundToCents_centMult _⟩, hOKcs⟩
    have hrec : outgoing (settleLoop ds
        (⟨c.member, roundToCents (c.amount - min d.amount c.amount)⟩ :: cs)) m
        ≤ memTotal ds m := ih hOKds hOKc2
    by_cases hm : d.member = m
    · rw [if_pos hm, if_pos hm]
      exact add_le_add (min_le_left _ _) hrec
    · rw [if_neg hm, if_neg hm]
      simpa using hrec
  | case5 d ds c cs payment dRem cRem hd hc ih =>
    intro hOKd hOKc
    rcases (entriesOK_cons d ds).mp hOKd with ⟨⟨h0d, hmd⟩, hOKds⟩
    rcases (entriesOK_cons c cs).mp hOKc with ⟨⟨h0c, hmc⟩, hOKcs⟩
    have hdexact : roundToCents (d.amount - min d.amount c.amount)
        = d.amount - min d.amount c.amount :=
      roundToCents_eq_self _
        (centMult_sub _ _ hmd (centMult_min _ _ hmd hmc))
    have hOKd2 : EntriesOK
        (⟨d.member, roundToCents (d.amount - min d.amount c.amount)⟩ :: ds) :=
      (entriesOK_cons _ _).mpr
        ⟨⟨roundToCents_nonneg _ (sub_nonneg.mpr (min_le_left _ _)),
          roundToCents_centMult _⟩, hOKds⟩
    have hrec : outgoing (settleLoop
        (⟨d.member, roundToCents (d.amount - min d.amount c.amount)⟩ :: ds) cs) m
        ≤ (if d.member = m
            then roundToCents (d.amount - min d.amount c.amount) else 0)
          + memTotal ds m := by
      have h0 := ih hOKd2 hOKcs
      rw [show memTotal
          (⟨d.member, roundToCents (d.amount - min d.amount c.amount)⟩ :: ds) m
          = (if d.member = m
              then roundToCents (d.amount - min d.amount c.amount) else 0)
            + memTotal ds m from memTotal_cons _ _ _] at h0
      exact h0
    rw [settleLoop_step_cAdv d c ds cs (by exact hd) (by exact hc),
      outgoing_emit _ _ _ _ (le_min h0d h0c), memTotal_cons]
    by_cases hm : d.member = m
    · rw [if_pos hm] at hrec ⊢
      rw [if_pos hm]
      linarith
    · rw [if_neg hm] at hrec ⊢
      rw [if_neg hm]
      linarith
  | case6 d ds c cs payment dRem cRem hd hc ih =>
    exact absurd (settle_branch_absurd d c (by exact hd) (by exact hc)) not_false

theorem settleLoop_incoming_le (d c : List Entry) (m : Member) :
    EntriesOK d → EntriesOK c →
    incoming (settleLoop d c) m ≤ memTotal c m := by
  induction d, c using settleLoop.induct with
  | case1 c =>
    intro _ hOKc
    rw [settleLoop_nil_left]
    rw [show incoming [] m = 0 from rfl]
    exact memTotal_nonneg _ m hOKc
  | case2 d ds =>
    intro _ _
    rw [settleLoop_nil_right, memTotal_nil]
    exact le_of_eq (incoming_nil m)
  | case3 d ds c cs payment dRem cRem hd hc ih =>
    intro hOKd hOKc
    rcases (entriesOK_cons d ds).mp hOKd with ⟨⟨h0d, hmd⟩, hOKds⟩
    rcases (entriesOK_cons c cs).mp hOKc with ⟨⟨h0c, hmc⟩, hOKcs⟩
    rw [settleLoop_step_both d c ds cs (by exact hd) (by exact hc),
      incoming_emit _ _ _ _ (le_min h0d h0c), memTotal_cons]
    have hrec : incoming (settleLoop ds cs) m ≤ memTotal cs m := ih hOKds hOKcs
    by_cases hm : c.member = m
    · rw [if_pos hm, if_pos hm]
      exact add_le_add (min_le_right _ _) hrec
    · rw [if_neg hm, if_neg hm]
      simpa using hrec
  | case4 d ds c cs payment dRem cRem hd hc ih =>
    intro hOKd hOKc
    rcases (entriesOK_cons d ds).mp hOKd with ⟨⟨h0d, hmd⟩, hOKds⟩
    rcases (entriesOK_cons c cs).mp hOKc with ⟨⟨h0c, hmc⟩, hOKcs⟩
    have hcexact : roundToCents (c.amount - min d.amount c.amount)
        = c.amount - min d.amount c.amount :=
      roundToCents_eq_self _
        (centMult_sub _ _ hmc (centMult_min _ _ hmd hmc))
    have hOKc2 : EntriesOK
        (⟨c.member, roundToCents (c.amount - min d.amount c.amount)⟩ :: cs) :=
      (entriesOK_cons _ _).mpr
        ⟨⟨roundToCents_nonneg _ (sub_nonneg.mpr (min_le_right _ _)),
          roundToCents_centMult _⟩, hOKcs⟩
    have hrec : incoming (settleLoop ds
        (⟨c.member, roundToCents (c.amount - min d.amount c.amount)⟩ :: cs)) m
        ≤ (if c.member = m
            then roundToCents (c.amount - min d.amount c.amount) else 0)
          + memTotal cs m := by
      have h0 := ih hOKds hOKc2
      rw [show memTotal
          (⟨c.member, roundToCents (c.amount - min d.amount c.amount)⟩ :: cs) m
          = (if c.member = m
              then roundToCents (c.amount - min d.amount c.amount) else 0)
            + memTotal cs m from memTotal_cons _ _ _] at h0
      exact h0
    rw [settleLoop_step_dAdv d c ds cs (by exact hd) (by exact hc),
      incoming_emit _ _ _ _ (le_min h0d h0c), memTotal_cons]
    by_cases hm : c.member = m
    · rw [if_pos hm] at hrec ⊢
      rw [if_pos hm]
      linarith
    · rw [if_neg hm] at hrec ⊢
      rw [if_neg hm]
      linarith
  | case5 d ds c cs payment dRem cRem hd hc ih =>
    intro hOKd hOKc
    rcases (entriesOK_cons d ds).mp hOKd with ⟨⟨h0d, hmd⟩, hOKds⟩
    rcases (entriesOK_cons c cs).mp hOKc with ⟨⟨h0c, hmc⟩, hOKcs⟩
    have hOKd2 : EntriesOK
        (⟨d.member, roundToCents (d.amount - min d.amount c.amount)⟩ :: ds) :=
      (entriesOK_cons _ _).mpr
        ⟨⟨roundToCents_nonneg _ (sub_nonneg.mpr (min_le_left _ _)),
          roundToCents_centMult _⟩, hOKds⟩
    have hrec : incoming (settleLoop
        (⟨d.member, roundToCents (d.amount - min d.amount c.amount)⟩ :: ds) cs) m
        ≤ memTotal cs m := ih hOKd2 hOKcs
    rw [settleLoop_step_cAdv d c ds cs (by exact hd) (by exact hc),
      incoming_emit _ _ _ _ (le_min h0d h0c), memTotal_cons]
    by_cases hm : c.member = m
    · rw [if_pos hm, if_pos hm]
      exact add_le_add (min_le_right _ _) hrec
    · rw [if_neg hm, if_neg hm]
      simpa using hrec
  | case6 d ds c cs payment dRem cRem hd hc ih =>
    exact absurd (settle_branch_absurd d c (by exact hd) (by exact hc)) not_false

theorem settleLoop_totals (d c : List Entry) :
    EntriesOK d → EntriesOK c →
    totalAmt (settleLoop d c) ≤ entryTotal d ∧
    totalAmt (settleLoop d c) ≤ entryTotal c ∧
    (entryTotal d - totalAmt (settleLoop d c) ≤ (d.length : ℚ) * (1/100) ∨
     entryTotal c - totalAmt (settleLoop d c) ≤ (c.length : ℚ) * (1/100)) := by
  induction d, c using settleLoop.induct with
  | case1 c =>
    intro _ hOKc
    rw [settleLoop_nil_left, totalAmt_nil, entryTotal_nil]
    refine ⟨le_refl 0, entryTotal_nonneg c hOKc, Or.inl (by simp)⟩
  | case2 d ds =>
    intro hOKd _
    rw [settleLoop_nil_right, totalAmt_nil, entryTotal_nil]
    refine ⟨entryTotal_nonneg _ hOKd, le_refl 0, Or.inr (by simp)⟩
  | case3 d ds c cs payment dRem cRem hd hc ih =>
    intro hOKd hOKc
    rcases (entriesOK_cons d ds).mp hOKd with ⟨⟨h0d, hmd⟩, hOKds⟩
    rcases (entriesOK_cons c cs).mp hOKc with ⟨⟨h0c, hmc⟩, hOKcs⟩
    have hdexact : roundToCents (d.amount - min d.amount c.amount)
        = d.amount - min d.amount c.amount :=
      roundToCents_eq_self _
        (centMult_sub _ _ hmd (centMult_min _ _ hmd hmc))
    have hcexact : roundToCents (c.amount - min d.amount c.amount)
        = c.amount - min d.amount c.amount :=
      roundToCents_eq_self _
        (centMult_sub _ _ hmc (centMult_min _ _ hmd hmc))
    have hdle : d.amount - min d.amount c.amount ≤ 1/100 := by
      rw [← hdexact]
      exact hd
    have hcle : c.amount - min d.amount c.amount ≤ 1/100 := by
      rw [← hcexact]
      exact hc
    rcases ih hOKds hOKcs with ⟨ih1, ih2, ih3⟩
    rw [settleLoop_step_both d c ds cs (by exact hd) (by exact hc),
      totalAmt_emit _ _ _ (le_min h0d h0c), entryTotal_cons, entryTotal_cons]
    refine ⟨add_le_add (min_le_left _ _) ih1,
      add_le_add (min_le_right _ _) ih2, ?_⟩
    rcases ih3 with ih3 | ih3
    · left
      simp only [List.length_cons]
      push_cast
      linarith
    · right
      simp only [List.length_cons]
      push_cast
      linarith
  | case4 d ds c cs payment dRem cRem hd hc ih =>
    intro hOKd hOKc
    rcases (entriesOK_cons d ds).mp hOKd with ⟨⟨h0d, hmd⟩, hOKds⟩
    rcases (entriesOK_cons c cs).mp hOKc with ⟨⟨h0c, hmc⟩, hOKcs⟩
    have hdexact : roundToCents (d.amount - min d.amount c.amount)
        = d.amount - min d.amount c.amount :=
      roundToCents_eq_self _
        (centMult_sub _ _ hmd (centMult_min _ _ hmd hmc))
    have hcexact : roundToCents (c.amount - min d.amount c.amount)
        = c.amount - min d.amount c.amount :=
      roundToCents_eq_self _
        (centMult_sub _ _ hmc (centMult_min _ _ hmd hmc))
    have hdle : d.amount - min d.amount c.amount ≤ 1/100 := by
      rw [← hdexact]
      exact hd
    have hOKc2 : EntriesOK
        (⟨c.member, roundToCents (c.amount - min d.amount c.amount)⟩ :: cs) :=
      (entriesOK_cons _ _).mpr
        ⟨⟨roundToCents_nonneg _ (sub_nonneg.mpr (min_le_right _ _)),
          roundToCents_centMult _⟩, hOKcs⟩
    have ih0 : totalAmt (settleLoop ds
          (⟨c.member, roundToCents (c.amount - min d.amount c.amount)⟩ :: cs))
          ≤ entryTotal ds ∧
        totalAmt (settleLoop ds
          (⟨c.member, roundToCents (c.amount - min d.amount c.amount)⟩ :: cs))
          ≤ entryTotal
            (⟨c.member, roundToCents (c.amount - min d.amount c.amount)⟩ :: cs) ∧
        (entryTotal ds - totalAmt (settleLoop ds
            (⟨c.member, roundToCents (c.amount - min d.amount c.amount)⟩ :: cs))
            ≤ (ds.length : ℚ) * (1/100) ∨
         entryTotal
            (⟨c.member, roundToCents (c.amount - min d.amount c.amount)⟩ :: cs)
            - totalAmt (settleLoop ds
            (⟨c.member, roundToCents (c.amount - min d.amount c.amount)⟩ :: cs))
            ≤ ((cs.length + 1 : ℕ) : ℚ) * (1/100)) := ih hOKds hOKc2
    rcases ih0 with ⟨ih1, ih2, ih3⟩
    have hET : entryTotal
        (⟨c.member, roundToCents (c.amount - min d.amount c.amount)⟩ :: cs)
        = roundToCents (c.amount - min d.amount c.amount) + entryTotal cs :=
      entryTotal_cons _ _
    rw [hET] at ih2 ih3
    rw [settleLoop_step_dAdv d c ds cs (by exact hd) (by exact hc),
      totalAmt_emit _ _ _ (le_min h0d h0c), entryTotal_cons, entryTotal_cons]
    refine ⟨add_le_add (min_le_left _ _) ih1, by linarith, ?_⟩
    rcases ih3 with ih3 | ih3
    · left
      simp only [List.length_cons]
      push_cast
      linarith
    · right
      simp only [List.length_cons]
      push_cast at ih3 ⊢
      linarith
  | case5 d ds c cs payment dRem cRem hd hc ih =>
    intro hOKd hOKc
    rcases (entriesOK_cons d ds).mp hOKd with ⟨⟨h0d, hmd⟩, hOKds⟩
    rcases (entriesOK_cons c cs).mp hOKc with ⟨⟨h0c, hmc⟩, hOKcs⟩
    have hdexact : roundToCents (d.amount - min d.amount c.amount)
        = d.amount - min d.amount c.amount :=
      roundToCents_eq_self _
        (centMult_sub _ _ hmd (centMult_min _ _ hmd hmc))
    have hcexact : roundToCents (c.amount - min d.amount c.amount)
        = c.amount - min d.amount c.amount :=
      roundToCents_eq_self _
        (centMult_sub _ _ hmc (centMult_min _ _ hmd hmc))
    have hcle : c.amount - min d.amount c.amount ≤ 1/100 := by
      rw [← hcexact]
      exact hc
    have hOKd2 : EntriesOK
        (⟨d.member, roundToCents (d.amount - min d.amount c.amount)⟩ :: ds) :=
      (entriesOK_cons _ _).mpr
        ⟨⟨roundToCents_nonneg _ (sub_nonneg.mpr (min_le_left _ _)),
          roundToCents_centMult _⟩, hOKds⟩
    have ih0 : totalAmt (settleLoop
          (⟨d.member, roundToCents (d.amount - min d.amount c.amount)⟩ :: ds) cs)
          ≤ entryTotal
            (⟨d.member, roundToCents (d.amount - min d.amount c.amount)⟩ :: ds) ∧
        totalAmt (settleLoop
          (⟨d.member, roundToCents (d.amount - min d.amount c.amount)⟩ :: ds) cs)
          ≤ entryTotal cs ∧
        (entryTotal
            (⟨d.member, roundToCents (d.amount - min d.amount c.amount)⟩ :: ds)
            - totalAmt (settleLoop
            (⟨d.member, roundToCents (d.amount - min d.amount c.amount)⟩ :: ds) cs)
            ≤ ((ds.length + 1 : ℕ) : ℚ) * (1/100) ∨
         entryTotal cs - totalAmt (settleLoop
            (⟨d.member, roundToCents (d.amount - min d.amount c.amount)⟩ :: ds) cs)
            ≤ (cs.length : ℚ) * (1/100)) := ih hOKd2 hOKcs
    rcases ih0 with ⟨ih1, ih2, ih3⟩
    have hET : entryTotal
        (⟨d.member, roundToCents (d.amount - min d.amount c.amount)⟩ :: ds)
        = roundToCents (d.amount - min d.amount c.amount) + entryTotal ds :=
      entryTotal_cons _ _
    rw [hET] at ih1 ih3
    rw [settleLoop_step_cAdv d c ds cs (by exact hd) (by exact hc),
      totalAmt_emit _ _ _ (le_min h0d h0c), entryTotal_cons, entryTotal_cons]
    refine ⟨by linarith, add_le_add (min_le_right _ _) ih2, ?_⟩
    rcases ih3 with ih3 | ih3
    · left
      simp only [List.length_cons]
      push_cast at ih3 ⊢
      linarith
    · right
      simp only [List.length_cons]
      push_cast
      linarith
  | case6 d ds c cs payment dRem cRem hd hc ih =>
    exact absurd (settle_branch_absurd d c (by exact hd) (by exact hc)) not_false

/-! ## Per-member decomposition of settled totals -/

theorem sum_map_add_q {α : Type} (l : List α) (f g : α → ℚ) :
    (l.map (fun x => f x + g x)).sum = (l.map f).sum + (l.map g).sum := by
  induction l with
  | nil => simp
  | cons a l ih =>
    simp only [List.map_cons, List.sum_cons, ih]
    ring

theorem sum_map_sub_q {α : Type} (l : List α) (f g : α → ℚ) :
    (l.map (fun x => f x - g x)).sum = (l.map f).sum - (l.map g).sum := by
  induction l with
  | nil => simp
  | cons a l ih =>
    simp only [List.map_cons, List.sum_cons, ih]
    ring

theorem sum_ite_member (l : List Entry) (x : Member) (a : ℚ)
    (hnd : (l.map (fun e => e.member)).Nodup)
    (hx : x ∈ l.map (fun e => e.member)) :
    (l.map (fun e => if x = e.member then a else 0)).sum = a := by
  induction l with
  | nil => cases hx
  | cons e l ih =>
    simp only [List.map_cons, List.nodup_cons] at hnd
    simp only [List.map_cons, List.mem_cons] at hx
    rcases hx with hx | hx
    · have htail : (l.map (fun q => if x = q.member then a else 0)).sum = 0 := by
        apply List.sum_eq_zero
        intro q hq
        rcases List.mem_map.mp hq with ⟨p, hp, hpq⟩
        rw [← hpq, if_neg]
        intro he
        exact hnd.1 (by
          rw [← hx, he]
          exact List.mem_map_of_mem (fun q => q.member) hp)
      rw [List.map_cons, List.sum_cons, if_pos hx, htail, add_zero]
    · have hne : ¬ x = e.member := fun he => hnd.1 (he ▸ hx)
      rw [List.map_cons, List.sum_cons, if_neg hne, ih hnd.2 hx, zero_add]

theorem sumOutgoing_nil_s (l : List Entry) : sumOutgoing [] l = 0 := by
  unfold sumOutgoing
  apply List.sum_eq_zero
  intro q hq
  rcases List.mem_map.mp hq with ⟨e, he, hqe⟩
  rw [← hqe]
  rfl

theorem sumIncoming_nil_s (l : List Entry) : sumIncoming [] l = 0 := by
  unfold sumIncoming
  apply List.sum_eq_zero
  intro q hq
  rcases List.mem_map.mp hq with ⟨e, he, hqe⟩
  rw [← hqe]
  rfl

theorem sumOutgoing_eq_totalAmt (s : List Settlement) (l : List Entry)
    (hnd : (l.map (fun e => e.member)).Nodup)
    (hsub : ∀ t ∈ s, t.fromMember ∈ l.map (fun e => e.member)) :
    sumOutgoing s l = totalAmt s := by
  induction s with
  | nil => rw [sumOutgoing_nil_s, totalAmt_nil]
  | cons t s ih =>
    have hsplit : sumOutgoing (t :: s) l
        = (l.map (fun e => if t.fromMember = e.member
            then t.amount else 0)).sum + sumOutgoing s l := by
      unfold sumOutgoing
      calc (l.map (fun e => outgoing (t :: s) e.member)).sum
          = (l.map (fun e => (if t.fromMember = e.member then t.amount else 0)
              + outgoing s e.member)).sum := by
            congr 1
            apply List.map_congr_left
            intro e he
            rw [outgoing_cons]
        _ = _ := sum_map_add_q l _ _
    rw [hsplit, totalAmt_cons,
      ih (fun q hq => hsub q (List.mem_cons_of_mem t hq)),
      sum_ite_member l t.fromMember t.amount hnd
        (hsub t (List.mem_cons_self t s))]

theorem sumIncoming_eq_totalAmt (s : List Settlement) (l : List Entry)
    (hnd : (l.map (fun e => e.member)).Nodup)
    (hsub : ∀ t ∈ s, t.toMember ∈ l.map (fun e => e.member)) :
    sumIncoming s l = totalAmt s := by
  induction s with
  | nil => rw [sumIncoming_nil_s, totalAmt_nil]
  | cons t s ih =>
    have hsplit : sumIncoming (t :: s) l
        = (l.map (fun e => if t.toMember = e.member
            then t.amount else 0)).sum + sumIncoming s l := by
      unfold sumIncoming
      calc (l.map (fun e => incoming (t :: s) e.member)).sum
          = (l.map (fun e => (if t.toMember = e.member then t.amount else 0)
              + incoming s e.member)).sum := by
            congr 1
            apply List.map_congr_left
            intro e he
            rw [incoming_cons]
        _ = _ := sum_map_add_q l _ _
    rw [hsplit, totalAmt_cons,
      ih (fun q hq => hsub q (List.mem_cons_of_mem t hq)),
      sum_ite_member l t.toMember t.amount hnd
        (hsub t (List.mem_cons_self t s))]

theorem memTotal_eq_amount (l : List Entry) (e : Entry)
    (hnd : (l.map (fun q => q.member)).Nodup) (he : e ∈ l) :
    memTotal l e.member = e.amount := by
  induction l with
  | nil => cases he
  | cons q l ih =>
    simp only [List.map_cons, List.nodup_cons] at hnd
    rcases List.mem_cons.mp he with he | he
    · subst he
      rw [memTotal_cons, if_pos rfl]
      have hz : memTotal l e.member = 0 := by
        unfold memTotal
        rw [List.filter_eq_nil_iff.mpr ?_]
        · rfl
        · intro p hp
          simp only [beq_iff_eq]
          intro hpe
          exact hnd.1 (hpe ▸ List.mem_map_of_mem (fun q => q.member) hp)
      rw [hz, add_zero]
    · have hne : ¬ q.member = e.member := fun h =>
        hnd.1 (h ▸ List.mem_map_of_mem (fun p => p.member) he)
      rw [memTotal_cons, if_neg hne, ih hnd.2 he, zero_add]

theorem outgoing_shortfall_le (s : List Settlement) (l : List Entry)
    (e : Entry)
    (hnd : (l.map (fun q => q.member)).Nodup)
    (he : e ∈ l)
    (hle : ∀ q ∈ l, outgoing s q.member ≤ memTotal l q.member)
    (hsub : ∀ t ∈ s, t.fromMember ∈ l.map (fun q => q.member)) :
    memTotal l e.member - outgoing s e.member
      ≤ entryTotal l - totalAmt s := by
  have hsum : (l.map (fun q => memTotal l q.member - outgoing s q.member)).sum
      = entryTotal l - totalAmt s := by
    rw [sum_map_sub_q]
    have h1 : (l.map (fun q => memTotal l q.member)).sum = entryTotal l := by
      unfold entryTotal
      congr 1
      apply List.map_congr_left
      intro q hq
      exact memTotal_eq_amount l q hnd hq
    have h2 : (l.map (fun q => outgoing s q.member)).sum = totalAmt s :=
      sumOutgoing_eq_totalAmt s l hnd hsub
    rw [h1, h2]
  rw [← hsum]
  apply List.single_le_sum
  · intro y hy
    rcases List.mem_map.mp hy with ⟨q, hq, hqy⟩
    rw [← hqy]
    exact sub_nonneg.mpr (hle q hq)
  · exact List.mem_map_of_mem _ he

theorem incoming_shortfall_le (s : List Settlement) (l : List Entry)
    (e : Entry)
    (hnd : (l.map (fun q => q.member)).Nodup)
    (he : e ∈ l)
    (hle : ∀ q ∈ l, incoming s q.member ≤ memTotal l q.member)
    (hsub : ∀ t ∈ s, t.toMember ∈ l.map (fun q => q.member)) :
    memTotal l e.member - incoming s e.member
      ≤ entryTotal l - totalAmt s := by
  have hsum : (l.map (fun q => memTotal l q.member - incoming s q.member)).sum
      = entryTotal l - totalAmt s := by
    rw [sum_map_sub_q]
    have h1 : (l.map (fun q => memTotal l q.member)).sum = entryTotal l := by
      unfold entryTotal
      congr 1
      apply List.map_congr_left
      intro q hq
      exact memTotal_eq_amount l q hnd hq
    have h2 : (l.map (fun q => incoming s q.member)).sum = totalAmt s :=
      sumIncoming_eq_totalAmt s l hnd hsub
    rw [h1, h2]
  rw [← hsum]
  apply List.single_le_sum
  · intro y hy
    rcases List.mem_map.mp hy with ⟨q, hq, hqy⟩
    rw [← hqy]
    exact sub_nonneg.mpr (hle q hq)
  · exact List.mem_map_of_mem _ he

/-! ## Bridging `debtorsOf`/`creditorsOf` back to rows -/

theorem nodup_debtor_members (rows : List BalanceRow)
    (hnd : (rows.map (fun r => r.member)).Nodup) :
    ((debtorsOf rows).map (fun e => e.member)).Nodup := by
  unfold debtorsOf
  rw [List.map_map]
  have h2 : ((rows.filter (fun r => decide (r.balance < 0))).map
      (fun r => r.member)).Nodup :=
    ((List.filter_sublist rows).map (fun r => r.member)).nodup hnd
  exact h2

theorem nodup_creditor_members (rows : List BalanceRow)
    (hnd : (rows.map (fun r => r.member)).Nodup) :
    ((creditorsOf rows).map (fun e => e.member)).Nodup := by
  unfold creditorsOf
  rw [List.map_map]
  have h2 : ((rows.filter (fun r => decide (0 < r.balance))).map
      (fun r => r.member)).Nodup :=
    ((List.filter_sublist rows).map (fun r => r.member)).nodup hnd
  exact h2

theorem memTotal_debtorsOf (rows : List BalanceRow) (r : BalanceRow)
    (hnd : (rows.map (fun q => q.member)).Nodup)
    (hr : r ∈ rows) (hneg : r.balance < 0) :
    memTotal (debtorsOf rows) r.member = roundToCents |r.balance| := by
  have hmem : (⟨r.member, roundToCents |r.balance|⟩ : Entry)
      ∈ debtorsOf rows := by
    unfold debtorsOf
    exact List.mem_map_of_mem _ (List.mem_filter.mpr ⟨hr, by simpa using hneg⟩)
  have h := memTotal_eq_amount (debtorsOf rows)
    ⟨r.member, roundToCents |r.balance|⟩ (nodup_debtor_members rows hnd) hmem
  simpa using h

theorem memTotal_creditorsOf (rows : List BalanceRow) (r : BalanceRow)
    (hnd : (rows.map (fun q => q.member)).Nodup)
    (hr : r ∈ rows) (hpos : 0 < r.balance) :
    memTotal (creditorsOf rows) r.member = roundToCents r.balance := by
  have hmem : (⟨r.member, roundToCents r.balance⟩ : Entry)
      ∈ creditorsOf rows := by
    unfold creditorsOf
    exact List.mem_map_of_mem _ (List.mem_filter.mpr ⟨hr, by simpa using hpos⟩)
  have h := memTotal_eq_amount (creditorsOf rows)
    ⟨r.member, roundToCents r.balance⟩ (nodup_creditor_members rows hnd) hmem
  simpa using h

theorem mem_debtor_members (rows : List BalanceRow) (x : Member) :
    x ∈ (debtorsOf rows).map (fun e => e.member)
      ↔ ∃ r ∈ rows, r.member = x ∧ r.balance < 0 := by
  unfold debtorsOf
  rw [List.map_map]
  constructor
  · intro hx
    rcases List.mem_map.mp hx with ⟨r, hr, hrx⟩
    rcases List.mem_filter.mp hr with ⟨hrr, hcond⟩
    exact ⟨r, hrr, hrx, by simpa using hcond⟩
  · rintro ⟨r, hr, hrx, hneg⟩
    apply List.mem_map.mpr
    exact ⟨r, List.mem_filter.mpr ⟨hr, by simpa using hneg⟩, hrx⟩

theorem mem_creditor_members (rows : List BalanceRow) (x : Member) :
    x ∈ (creditorsOf rows).map (fun e => e.member)
      ↔ ∃ r ∈ rows, r.member = x ∧ 0 < r.balance := by
  unfold creditorsOf
  rw [List.map_map]
  constructor
  · intro hx
    rcases List.mem_map.mp hx with ⟨r, hr, hrx⟩
    rcases List.mem_filter.mp hr with ⟨hrr, hcond⟩
    exact ⟨r, hrr, hrx, by simpa using hcond⟩
  · rintro ⟨r, hr, hrx, hneg⟩
    apply List.mem_map.mpr
    exact ⟨r, List.mem_filter.mpr ⟨hr, by simpa using hneg⟩, hrx⟩

/-! ## Claim theorems: settlement planner -/

/-- C2 (counterexample): `rowsDrop` sums to zero exactly, yet debtor `C`
(original debt `0.02`) pays nothing — the loop dropped one cent at each of
the two creditors, so summing `C`'s outgoing settlements misses its debt by
`0.02 > 0.01`, refuting the claimed `±0.01` conservation. -/
theorem settlement_conservation_cex :
    ((rowsDrop.map (fun r => r.balance)).sum = 0) ∧
    computeSettlements rowsDrop = [⟨mA, mD, 2/100⟩, ⟨mB, mE, 2/100⟩] ∧
    outgoing (computeSettlements rowsDrop) mC = 0 ∧
    (⟨mC, -2/100⟩ : BalanceRow) ∈ rowsDrop ∧
    ¬ |outgoing (computeSettlements rowsDrop) mC - abs (-2/100 : ℚ)| ≤ 1/100 := by
  have e1 : debtorsOf rowsDrop
      = [⟨mA, 2/100⟩, ⟨mB, 2/100⟩, ⟨mC, 2/100⟩] := by
    simp [debtorsOf, rowsDrop, mA, mB, mC, mD, mE]
    norm_num [roundToCents, abs_of_pos]
  have e2 : creditorsOf rowsDrop = [⟨mD, 3/100⟩, ⟨mE, 3/100⟩] := by
    simp [creditorsOf, rowsDrop, mA, mB, mC, mD, mE]
    norm_num [roundToCents, abs_of_pos]
  have heval : computeSettlements rowsDrop
      = [⟨mA, mD, 2/100⟩, ⟨mB, mE, 2/100⟩] := by
    rw [computeSettlements, e1, e2, settleLoop_cons_eq]
    norm_num [roundToCents]
    rw [settleLoop_cons_eq]
    norm_num [roundToCents, settleLoop_nil_left, settleLoop_nil_right]
  refine ⟨by simp [rowsDrop]; norm_num, heval, ?_, ?_, ?_⟩
  · rw [heval]
    simp [outgoing, mA, mB, mC, mD, mE]
  · simp [rowsDrop]
  · have hout : outgoing (computeSettlements rowsDrop) mC = 0 := by
      rw [heval]
      simp [outgoing, mA, mB, mC, mD, mE]
    rw [hout, show abs (-2/100 : ℚ) = 2/100 from by norm_num]
    norm_num [abs_le]

/-- C2 (amendment): with distinct row members and exactly balanced rounded
totals, each debtor's outgoing total equals its rounded debt and each
creditor's incoming total equals its rounded credit, to within
`(debtors + creditors) * 0.01` — one dropped cent per cursor advance, not
`0.01` overall. -/
theorem settlement_conservation (rows : List BalanceRow)
    (hnd : (rows.map (fun r => r.member)).Nodup)
    (hbal : entryTotal (debtorsOf rows) = entryTotal (creditorsOf rows)) :
    ∀ r ∈ rows,
      (r.balance < 0 →
        |outgoing (computeSettlements rows) r.member
            - roundToCents (abs r.balance)|
          ≤ (((debtorsOf rows).length + (creditorsOf rows).length : ℕ) : ℚ)
            * (1/100)) ∧
      (0 < r.balance →
        |incoming (computeSettlements rows) r.member
            - roundToCents r.balance|
          ≤ (((debtorsOf rows).length + (creditorsOf rows).length : ℕ) : ℚ)
            * (1/100)) := by
  intro r hr
  have hOKd := entriesOK_debtorsOf rows
  have hOKc := entriesOK_creditorsOf rows
  have hrole := settleLoop_roles (debtorsOf rows) (creditorsOf rows)
  obtain ⟨ht1, ht2, ht3⟩ :=
    settleLoop_totals (debtorsOf rows) (creditorsOf rows) hOKd hOKc
  have hndd := nodup_debtor_members rows hnd
  have hndc := nodup_creditor_members rows hnd
  have hcast1 : ((debtorsOf rows).length : ℚ) * (1/100)
      ≤ (((debtorsOf rows).length + (creditorsOf rows).length : ℕ) : ℚ)
        * (1/100) := by
    have h0 : (0 : ℚ) ≤ ((creditorsOf rows).length : ℚ) := Nat.cast_nonneg _
    push_cast
    linarith
  have hcast2 : ((creditorsOf rows).length : ℚ) * (1/100)
      ≤ (((debtorsOf rows).length + (creditorsOf rows).length : ℕ) : ℚ)
        * (1/100) := by
    have h0 : (0 : ℚ) ≤ ((debtorsOf rows).length : ℚ) := Nat.cast_nonneg _
    push_cast
    linarith
  have hshort : entryTotal (debtorsOf rows)
      - totalAmt (settleLoop (debtorsOf rows) (creditorsOf rows))
      ≤ (((debtorsOf rows).length + (creditorsOf rows).length : ℕ) : ℚ)
        * (1/100) := by
    rcases ht3 with h | h
    · exact le_trans h hcast1
    · rw [hbal]
      exact le_trans h hcast2
  have hCS : computeSettlements rows
      = settleLoop (debtorsOf rows) (creditorsOf rows) := rfl
  constructor
  · intro hneg
    have hout_le : outgoing (computeSettlements rows) r.member
        ≤ memTotal (debtorsOf rows) r.member := by
      rw [hCS]
      exact settleLoop_outgoing_le _ _ r.member hOKd hOKc
    have hmem : (⟨r.member, roundToCents |r.balance|⟩ : Entry)
        ∈ debtorsOf rows := by
      unfold debtorsOf
      exact List.mem_map_of_mem _
        (List.mem_filter.mpr ⟨hr, by simpa using hneg⟩)
    have hsf : memTotal (debtorsOf rows) r.member
        - outgoing (computeSettlements rows) r.member
        ≤ entryTotal (debtorsOf rows)
          - totalAmt (settleLoop (debtorsOf rows) (creditorsOf rows)) := by
      rw [hCS]
      exact outgoing_shortfall_le _ (debtorsOf rows)
        ⟨r.member, roundToCents |r.balance|⟩ hndd hmem
        (fun q hq => settleLoop_outgoing_le _ _ q.member hOKd hOKc)
        (fun t ht => (hrole t ht).1)
    have hmt : memTotal (debtorsOf rows) r.member = roundToCents |r.balance| :=
      memTotal_debtorsOf rows r hnd hr hneg
    rw [hmt] at hout_le hsf
    rw [abs_of_nonpos (by linarith)]
    linarith
  · intro hpos
    have hin_le : incoming (computeSettlements rows) r.member
        ≤ memTotal (creditorsOf rows) r.member := by
      rw [hCS]
      exact settleLoop_incoming_le _ _ r.member hOKd hOKc
    have hmem : (⟨r.member, roundToCents r.balance⟩ : Entry)
        ∈ creditorsOf rows := by
      unfold creditorsOf
      exact List.mem_map_of_mem _
        (List.mem_filter.mpr ⟨hr, by simpa using hpos⟩)
    have hsf : memTotal (creditorsOf rows) r.member
        - incoming (computeSettlements rows) r.member
        ≤ entryTotal (creditorsOf rows)
          - totalAmt (settleLoop (debtorsOf rows) (creditorsOf rows)) := by
      rw [hCS]
      exact incoming_shortfall_le _ (creditorsOf rows)
        ⟨r.member, roundToCents r.balance⟩ hndc hmem
        (fun q hq => settleLoop_incoming_le _ _ q.member hOKd hOKc)
        (fun t ht => (hrole t ht).2.1)
    have hmt : memTotal (creditorsOf rows) r.member = roundToCents r.balance :=
      memTotal_creditorsOf rows r hnd hr hpos
    rw [hmt] at hin_le hsf
    have hshort2 : entryTotal (creditorsOf rows)
        - totalAmt (settleLoop (debtorsOf rows) (creditorsOf rows))
        ≤ (((debtorsOf rows).length + (creditorsOf rows).length : ℕ) : ℚ)
          * (1/100) := by
      rw [← hbal]
      exact hshort
    rw [abs_of_nonpos (by linarith)]
    linarith

/-- C2 (witness): in the spec scenario (debtors `A:10`, `B:5`, creditor
`C:15`) debtor `A`'s outgoing total is within tolerance of its debt. -/
theorem settlement_conservation_witness :
    (⟨mA, -10⟩ : BalanceRow) ∈ rowsW ∧
    |outgoing (computeSettlements rowsW) mA - roundToCents (abs (-10 : ℚ))|
      ≤ (((debtorsOf rowsW).length + (creditorsOf rowsW).length : ℕ) : ℚ)
        * (1/100) := by
  have hnd : (rowsW.map (fun r => r.member)).Nodup := by
    simp [rowsW, mA, mB, mC]
  have hbal : entryTotal (debtorsOf rowsW) = entryTotal (creditorsOf rowsW) := by
    simp [entryTotal, debtorsOf, creditorsOf, rowsW, mA, mB, mC]
    norm_num [roundToCents, abs_of_pos]
  have hmem : (⟨mA, -10⟩ : BalanceRow) ∈ rowsW := by
    simp [rowsW]
  have h := (settlement_conservation rowsW hnd hbal ⟨mA, -10⟩ hmem).1
    (by norm_num)
  exact ⟨hmem, h⟩

/-- C6 (counterexample): both balances of `rowsCent` are within `0.01` of
zero, yet `computeSettlements` emits a one-cent settlement — the claimed
emptiness under the `0.01` tolerance is false. -/
theorem settlement_output_cex :
    (∀ r ∈ rowsCent, |r.balance| ≤ 1/100) ∧
    computeSettlements rowsCent = [⟨mB, mA, 1/100⟩] ∧
    computeSettlements rowsCent ≠ [] := by
  have e1 : debtorsOf rowsCent = [⟨mB, 1/100⟩] := by
    simp [debtorsOf, rowsCent, mA, mB]
    norm_num [roundToCents, abs_of_pos]
  have e2 : creditorsOf rowsCent = [⟨mA, 1/100⟩] := by
    simp [creditorsOf, rowsCent, mA, mB]
    norm_num [roundToCents, abs_of_pos]
  have heval : computeSettlements rowsCent = [⟨mB, mA, 1/100⟩] := by
    rw [computeSettlements, e1, e2, settleLoop_cons_eq]
    norm_num [roundToCents, settleLoop_nil_left]
  refine ⟨?_, heval, by rw [heval]; simp⟩
  intro r hr
  rcases List.mem_cons.mp hr with h | h
  · rw [h]
    norm_num [abs_le]
  · rcases List.mem_cons.mp h with h | h
    · rw [h]
      norm_num [abs_le]
    · cases h

/-- C6 (amendment): every emitted settlement has positive amount, its
`from` comes from a strictly negative row and its `to` from a strictly
positive row; and if every balance is within *half a cent* of zero (so it
rounds to zero cents), the settlement list is empty.  Balances of exactly
`±0.01` do produce a settlement, so the claimed `0.01` tolerance is
corrected to `< 0.005`. -/
theorem settlement_output_contract (rows : List BalanceRow) :
    (∀ s ∈ computeSettlements rows, 0 < s.amount) ∧
    (∀ s ∈ computeSettlements rows,
      (∃ r ∈ rows, r.member = s.fromMember ∧ r.balance < 0) ∧
      (∃ r ∈ rows, r.member = s.toMember ∧ 0 < r.balance)) ∧
    ((∀ r ∈ rows, |r.balance| < 1/200) → computeSettlements rows = []) := by
  have hrole := settleLoop_roles (debtorsOf rows) (creditorsOf rows)
  refine ⟨fun s hs => (hrole s hs).2.2, fun s hs => ?_, ?_⟩
  · exact ⟨(mem_debtor_members rows s.fromMember).mp (hrole s hs).1,
      (mem_creditor_members rows s.toMember).mp (hrole s hs).2.1⟩
  · intro hsmall
    apply settleLoop_all_zero
    · intro e he
      unfold debtorsOf at he
      rcases List.mem_map.mp he with ⟨r, hrf, hre⟩
      rcases List.mem_filter.mp hrf with ⟨hrr, _⟩
      rw [← hre]
      exact roundToCents_eq_zero_of_small _ (abs_nonneg _) (hsmall r hrr)
    · intro e he
      unfold creditorsOf at he
      rcases List.mem_map.mp he with ⟨r, hrf, hre⟩
      rcases List.mem_filter.mp hrf with ⟨hrr, hcond⟩
      rw [← hre]
      apply roundToCents_eq_zero_of_small _
        (le_of_lt (by simpa using hcond))
      calc r.balance ≤ |r.balance| := le_abs_self _
        _ < 1/200 := hsmall r hrr

/-- C6 (witness): the positivity and role facts at a concrete settlement,
and emptiness on concrete sub-half-cent rows. -/
theorem settlement_output_witness :
    0 < (1/100 : ℚ) ∧
    (∃ r ∈ rowsCent, r.member = mB ∧ r.balance < 0) ∧
    computeSettlements [⟨mA, 1/300⟩, ⟨mB, -1/300⟩] = [] := by
  have heval : computeSettlements rowsCent = [⟨mB, mA, 1/100⟩] := by
    have e1 : debtorsOf rowsCent = [⟨mB, 1/100⟩] := by
      simp [debtorsOf, rowsCent, mA, mB]
      norm_num [roundToCents, abs_of_pos]
    have e2 : creditorsOf rowsCent = [⟨mA, 1/100⟩] := by
      simp [creditorsOf, rowsCent, mA, mB]
      norm_num [roundToCents, abs_of_pos]
    rw [computeSettlements, e1, e2, settleLoop_cons_eq]
    norm_num [roundToCents, settleLoop_nil_left]
  have hs : (⟨mB, mA, 1/100⟩ : Settlement) ∈ computeSettlements rowsCent := by
    rw [heval]
    exact List.mem_cons_self _ _
  have h := settlement_output_contract rowsCent
  refine ⟨?_, ?_, ?_⟩
  · have := h.1 _ hs
    simp only at this
    exact this
  · have := (h.2.1 _ hs).1
    simpa using this
  · apply (settlement_output_contract [⟨mA, 1/300⟩, ⟨mB, -1/300⟩]).2.2
    intro r hr
    rcases List.mem_cons.mp hr with hh | hh
    · rw [hh]
      norm_num [abs_lt]
    · rcases List.mem_cons.mp hh with hh | hh
      · rw [hh]
        norm_num [abs_lt]
      · cases hh

/-- C7: the number of settlements is at most `creditors + debtors - 1`,
where `creditors`/`debtors` count the rows with positive/negative balance
(truncated `ℕ` subtraction). -/
theorem settlement_count_bound (rows : List BalanceRow) :
    (computeSettlements rows).length
      ≤ (rows.filter (fun r => 0 < r.balance)).length
        + (rows.filter (fun r => r.balance < 0)).length - 1 := by
  have h := settleLoop_length_le (debtorsOf rows) (creditorsOf rows)
  have hd : (debtorsOf rows).length
      = (rows.filter (fun r => r.balance < 0)).length := by
    simp [debtorsOf]
  have hc : (creditorsOf rows).length
      = (rows.filter (fun r => 0 < r.balance)).length := by
    simp [creditorsOf]
  rw [hd, hc] at h
  rw [show computeSettlements rows
    = settleLoop (debtorsOf rows) (creditorsOf rows) from rfl]
  omega

/-- C9: the matching loop of `computeSettlements` terminates — it is a
total function of its two cursor lists, and its iteration count is at most
`debtors + creditors`, since every iteration advances at least one cursor. -/
theorem settlement_termination (rows : List BalanceRow) :
    computeSettlements rows
      = settleLoop (debtorsOf rows) (creditorsOf rows) ∧
    settleIters (debtorsOf rows) (creditorsOf rows)
      ≤ (debtorsOf rows).length + (creditorsOf rows).length :=
  ⟨rfl, settleIters_le _ _⟩

/-- C10: when each member occurs in at most one row, no settlement directs
a member to pay themselves: `from` is drawn from rows with negative balance
and `to` from rows with positive balance. -/
theorem no_self_settlement (rows : List BalanceRow)
    (hnd : (rows.map (fun r => r.member)).Nodup) :
    ∀ s ∈ computeSettlements rows, ¬ s.fromMember = s.toMember := by
  intro s hs heq
  have hrole := settleLoop_roles (debtorsOf rows) (creditorsOf rows) s hs
  rcases (mem_debtor_members rows s.fromMember).mp hrole.1
    with ⟨r1, hr1, hm1, hb1⟩
  rcases (mem_creditor_members rows s.toMember).mp hrole.2.1
    with ⟨r2, hr2, hm2, hb2⟩
  have hr12 : r1 = r2 :=
    List.inj_on_of_nodup_map hnd hr1 hr2 (by rw [hm1, hm2, heq])
  rw [hr12] at hb1
  linarith

/-- C10 (witness): on `rowsCent` the only settlement directs `B` to pay
`A`, and indeed `B ≠ A`. -/
theorem no_self_settlement_witness :
    (⟨mB, mA, 1/100⟩ : Settlement) ∈ computeSettlements rowsCent ∧
    ¬ (⟨mB, mA, 1/100⟩ : Settlement).fromMember
      = (⟨mB, mA, 1/100⟩ : Settlement).toMember := by
  have heval : computeSettlements rowsCent = [⟨mB, mA, 1/100⟩] := by
    have e1 : debtorsOf rowsCent = [⟨mB, 1/100⟩] := by
      simp [debtorsOf, rowsCent, mA, mB]
      norm_num [roundToCents, abs_of_pos]
    have e2 : creditorsOf rowsCent = [⟨mA, 1/100⟩] := by
      simp [creditorsOf, rowsCent, mA, mB]
      norm_num [roundToCents, abs_of_pos]
    rw [computeSettlements, e1, e2, settleLoop_cons_eq]
    norm_num [roundToCents, settleLoop_nil_left]
  have hmem : (⟨mB, mA, 1/100⟩ : Settlement) ∈ computeSettlements rowsCent := by
    rw [heval]
    exact List.mem_cons_self _ _
  refine ⟨hmem, ?_⟩
  apply no_self_settlement rowsCent ?_ _ hmem
  simp [rowsCent, mA, mB]

/-! ## Claim theorems: balance calculator -/

theorem mem_bkeys_foldl_applyExpense (es : List Expense) (b : Balances)
    (x : String) :
    x ∈ bkeys (es.foldl applyExpense b)
      ↔ x ∈ bkeys b ∨ ∃ e ∈ es, x ∈ refIds e := by
  induction es generalizing b with
  | nil => simp
  | cons e rest ih =>
    rw [List.foldl_cons, ih, mem_bkeys_applyExpense]
    constructor
    · rintro ((h | h) | ⟨q, hq, hx⟩)
      · exact Or.inl h
      · exact Or.inr ⟨e, List.mem_cons_self e rest, h⟩
      · exact Or.inr ⟨q, List.mem_cons_of_mem e hq, hx⟩
    · rintro (h | ⟨q, hq, hx⟩)
      · exact Or.inl (Or.inl h)
      · rcases List.mem_cons.mp hq with hq | hq
        · exact Or.inl (Or.inr (hq ▸ hx))
        · exact Or.inr ⟨q, hq, hx⟩

theorem not_mem_refIds (e : Expense) (x : String)
    (h1 : ¬ x = e.paidBy) (h2 : x ∉ e.splitBetween)
    (h3 : x ∉ (e.splitAmounts.getD []).map (fun kv => kv.1)) :
    x ∉ refIds e := by
  unfold refIds
  by_cases hp : e.paidBy = ""
  · simp [hp]
  · simp only [hp, if_false, List.mem_cons]
    rintro (h | h)
    · exact h1 h
    · by_cases hc : hasCustomSplit e
      · rw [if_pos hc] at h
        exact h3 h
      · rw [if_neg hc] at h
        unfold splitSet at h
        by_cases hl : e.splitBetween.length > 0
        · rw [if_pos hl] at h
          exact h2 h
        · rw [if_neg hl] at h
          simp only [List.mem_singleton] at h
          exact h1 h

/-- C1 (counterexample): in `gLeak` an expense is paid by the non-member id
`"X"` and a custom split does not sum to its amount, so the internal
balances sum to `7` and the returned rows sum to `-3`; the rows sum is not
within `1e-6` of zero. -/
theorem balance_zero_sum_cex :
    bsum (internalBalances gLeak) = 7 ∧
    ((computeBalances gLeak).map (fun r => r.balance)).sum = -3 ∧
    ¬ |((computeBalances gLeak).map (fun r => r.balance)).sum|
      ≤ 1/1000000 := by
  have h1 : bsum (internalBalances gLeak) = 7 := by
    simp [internalBalances, initBalances, applyExpense, badd, bset0, bhas,
      bget, bsum, gLeak, mA, hasCustomSplit, splitSet, share]
    norm_num
  have h2 : ((computeBalances gLeak).map (fun r => r.balance)).sum = -3 := by
    simp [computeBalances, internalBalances, initBalances, applyExpense,
      badd, bset0, bhas, bget, gLeak, mA, hasCustomSplit, splitSet, share]
  refine ⟨h1, h2, ?_⟩
  rw [h2]
  norm_num [abs_le]

/-- C1 (amendment): when every custom-branch expense's `splitAmounts` sums
to its amount, the internal balances sum to exactly `0`; when additionally
member ids are distinct and every id an expense touches is a member id, the
returned rows also sum to exactly `0`. -/
theorem balance_zero_sum (g : Group)
    (hcu : ∀ e ∈ g.expenses, hasCustomSplit e = true →
      saSum (e.splitAmounts.getD []) = e.amount) :
    bsum (internalBalances g) = 0 ∧
    ((g.members.map (fun m => m.id)).Nodup →
      (∀ e ∈ g.expenses, ∀ x ∈ refIds e,
        x ∈ g.members.map (fun m => m.id)) →
      ((computeBalances g).map (fun r => r.balance)).sum = 0) := by
  refine ⟨bsum_internal g hcu, ?_⟩
  intro hnd hcl
  have hkeys : bkeys (internalBalances g) = g.members.map (fun m => m.id) :=
    bkeys_internal_of_closed g hcl hnd
  have hndk : (bkeys (internalBalances g)).Nodup := nodup_bkeys_internal g
  have hrows : (computeBalances g).map (fun r => r.balance)
      = (g.members.map (fun m => m.id)).map
          (fun k => bget (internalBalances g) k) := by
    unfold computeBalances
    rw [List.map_map, List.map_map]
    rfl
  rw [hrows, ← hkeys, sum_bget_bkeys (internalBalances g) hndk]
  exact bsum_internal g hcu

/-- C1 (witness): the specification scenario group `gW` satisfies both
zero-sum conclusions. -/
theorem balance_zero_sum_witness :
    bsum (internalBalances gW) = 0 ∧
    ((computeBalances gW).map (fun r => r.balance)).sum = 0 := by
  have hcu : ∀ e ∈ gW.expenses, hasCustomSplit e = true →
      saSum (e.splitAmounts.getD []) = e.amount := by
    intro e he hc
    rcases List.mem_cons.mp he with h | h
    · exact absurd hc (by rw [h]; decide)
    · rcases List.mem_cons.mp h with h | h
      · rw [h]
        norm_num [saSum]
      · cases h
  have hnd : (gW.members.map (fun m => m.id)).Nodup := by decide
  have hcl : ∀ e ∈ gW.expenses, ∀ x ∈ refIds e,
      x ∈ gW.members.map (fun m => m.id) := by decide
  exact ⟨(balance_zero_sum gW hcu).1, (balance_zero_sum gW hcu).2 hnd hcl⟩

/-- C3 (counterexample): `eEqualButCustom` has `splitMode = equal` but a
non-empty `splitAmounts`; `computeBalances` debits `B` by the mapped `9`,
not by the claimed equal share `12/2 = 6`. -/
theorem equal_split_cex :
    eEqualButCustom.splitMode = some SplitMode.equal ∧
    share eEqualButCustom = 6 ∧
    (splitSet eEqualButCustom).count "B" = 1 ∧
    computeBalances gEqualButCustom = [⟨mA, 12⟩, ⟨mB, -9⟩] ∧
    ¬ (-9 : ℚ) = 0 - 1 * 6 := by
  refine ⟨by decide, ?_, by decide, ?_, by norm_num⟩
  · norm_num [share, splitSet, eEqualButCustom]
  · simp [computeBalances, internalBalances, initBalances, applyExpense,
      badd, bset0, bhas, bget, gEqualButCustom, eEqualButCustom, mA, mB,
      hasCustomSplit, splitSet, share]

/-- C3 (amendment): for every expense with a payer whose `splitAmounts` is
absent or empty (`hasCustomSplit = false` — regardless of `splitMode`),
each occurrence of an id in the split set is debited `amount / count`, the
per-head shares sum exactly to the amount, and the expense preserves the
total of the balances record. -/
theorem equal_split_rule (b : Balances) (e : Expense)
    (hp : ¬ e.paidBy = "") (hc : hasCustomSplit e = false)
    (hnd : (bkeys b).Nodup) :
    (∀ x : String, bget (applyExpense b e) x
      = bget b x + (if x = e.paidBy then e.amount else 0)
        - ((splitSet e).count x : ℚ) * share e) ∧
    ((splitSet e).length : ℚ) * share e = e.amount ∧
    bsum (applyExpense b e) = bsum b := by
  refine ⟨fun x => bget_applyExpense_equal b e hp hc x, ?_, ?_⟩
  · have hlen0 : (splitSet e).length ≠ 0 := by
      simpa [List.length_eq_zero] using splitSet_ne_nil e
    have hlen : ((splitSet e).length : ℚ) ≠ 0 := by exact_mod_cast hlen0
    unfold share
    rw [if_neg hlen0]
    field_simp
  · rw [bsum_applyExpense b e hnd]
    simp [hp, hc]

/-- C3 (witness): the 90-unit equal split among `A,B,C` debits `B` by 30,
its three shares sum to 90, and the record total is preserved. -/
theorem equal_split_witness :
    bget (applyExpense [] eShare90) "B" = -30 ∧
    ((splitSet eShare90).length : ℚ) * share eShare90 = 90 ∧
    bsum (applyExpense [] eShare90) = 0 := by
  have h := equal_split_rule [] eShare90 (by decide) (by decide)
    (by decide)
  refine ⟨?_, ?_, ?_⟩
  · rw [h.1 "B"]
    have hcount : List.count "B" (splitSet eShare90) = 1 := by decide
    have hshare : share eShare90 = 30 := by
      norm_num [share, splitSet, eShare90]
    rw [hcount, hshare]
    simp [bget, eShare90]
  · have h2 := h.2.1
    simpa [eShare90] using h2
  · have h3 := h.2.2
    simpa [bsum] using h3

/-- C4 (counterexample): `eNoModeCustom` has no `splitMode` at all, yet its
non-empty `splitAmounts` makes `computeBalances` take the custom branch
(debiting `B` by the mapped `7`), refuting "exactly when
`splitMode == custom` and `splitAmounts` is non-empty". -/
theorem custom_split_cex :
    hasCustomSplit eNoModeCustom = true ∧
    ¬ specCustomCond eNoModeCustom ∧
    computeBalances gNoModeCustom = [⟨mA, 10⟩, ⟨mB, -7⟩] := by
  refine ⟨by decide, fun h => Option.noConfusion h.1, ?_⟩
  simp [computeBalances, internalBalances, initBalances, applyExpense,
    badd, bset0, bhas, bget, gNoModeCustom, eNoModeCustom, mA, mB,
    hasCustomSplit, splitSet, share]

/-- C4 (amendment): the custom branch is taken exactly when `splitAmounts`
is present and non-empty (whatever `splitMode` is); it debits each id by
its mapped amount, used as-is, and ids not listed in `splitAmounts` (other
than the credited payer) are unchanged by the expense. -/
theorem custom_split_rule (b : Balances) (e : Expense)
    (hp : ¬ e.paidBy = "") :
    (hasCustomSplit e = true ↔
      ∃ sa, e.splitAmounts = some sa ∧ sa ≠ []) ∧
    (hasCustomSplit e = true → ∀ x : String,
      bget (applyExpense b e) x
        = bget b x + (if x = e.paidBy then e.amount else 0)
          - saDebit (e.splitAmounts.getD []) x) ∧
    (hasCustomSplit e = true → ∀ x : String,
      x ∉ (e.splitAmounts.getD []).map (fun kv => kv.1) →
      ¬ x = e.paidBy →
      bget (applyExpense b e) x = bget b x) := by
  refine ⟨?_, fun hc x => bget_applyExpense_custom b e hp hc x, ?_⟩
  · unfold hasCustomSplit
    cases hsa : e.splitAmounts with
    | none => simp
    | some sa =>
      simp only [hsa, Option.isSome_some, Bool.or_true, Bool.true_and,
        Option.getD_some]
      constructor
      · intro h
        refine ⟨sa, rfl, ?_⟩
        intro hnil
        rw [hnil] at h
        simp at h
      · rintro ⟨sa2, hsa2, hne⟩
        have hss : sa = sa2 := Option.some_inj.mp hsa2
        simp only [decide_eq_true_eq]
        apply List.length_pos.mpr
        rw [hss]
        exact hne
  · intro hc x hxs hxp
    rw [bget_applyExpense_custom b e hp hc x, if_neg hxp]
    have hdeb : saDebit (e.splitAmounts.getD []) x = 0 := by
      unfold saDebit
      rw [List.filter_eq_nil_iff.mpr ?_]
      · rfl
      · intro kv hkv
        simp only [beq_iff_eq]
        intro he
        exact hxs (he ▸ List.mem_map_of_mem (fun q => q.1) hkv)
    rw [hdeb]
    ring

/-- C4 (witness): the custom expense `eCustom30` (`{C: 30}` paid by `B`)
debits `C` by exactly 30 and leaves the unrelated id `"X"` untouched. -/
theorem custom_split_witness :
    hasCustomSplit eCustom30 = true ∧
    bget (applyExpense [] eCustom30) "C" = -30 ∧
    bget (applyExpense [] eCustom30) "X" = bget [] "X" := by
  have h := custom_split_rule [] eCustom30 (by decide)
  have hc : hasCustomSplit eCustom30 = true := by decide
  refine ⟨hc, ?_, ?_⟩
  · rw [h.2.1 hc "C"]
    simp [bget, eCustom30, saDebit]
  · exact h.2.2 hc "X" (by decide) (by decide)

/-- C5 (counterexample): in `gUnknownZero` the unknown payer `"X"` (with
empty `splitBetween`, so the whole expense falls back onto `"X"`) is
tracked in the internal balances but with balance exactly `0`, refuting
"appears in the balance computation with a nonzero balance". -/
theorem unknown_id_cex :
    bhas (internalBalances gUnknownZero) "X" = true ∧
    bget (internalBalances gUnknownZero) "X" = 0 := by
  constructor
  · simp [internalBalances, initBalances, applyExpense, badd, bset0, bhas,
      gUnknownZero, mA, hasCustomSplit, splitSet, share]
  · simp [internalBalances, initBalances, applyExpense, badd, bset0, bhas,
      bget, gUnknownZero, mA, hasCustomSplit, splitSet, share]

/-- C5 (amendment): `computeBalances` is total: an empty member list gives
an empty output (whatever the expenses), an empty expense list gives
all-zero balances, the returned rows are exactly the members (so an id
absent from `members` never appears in them), and any expense's non-empty
payer id is tracked in the internal balances — zero-initialised on demand,
though its final balance may be zero. -/
theorem computeBalances_total (g : Group) :
    (g.members = [] → computeBalances g = []) ∧
    (g.expenses = [] → ∀ r ∈ computeBalances g, r.balance = 0) ∧
    ((computeBalances g).map (fun r => r.member) = g.members) ∧
    (∀ e ∈ g.expenses, ¬ e.paidBy = "" →
      e.paidBy ∈ bkeys (internalBalances g)) := by
  refine ⟨?_, ?_, ?_, ?_⟩
  · intro h
    unfold computeBalances
    rw [h]
    rfl
  · intro h r hr
    rcases List.mem_map.mp hr with ⟨m, hm, hmr⟩
    rw [← hmr]
    show bget (internalBalances g) m.id = 0
    unfold internalBalances
    rw [h]
    exact bget_initBalances g m.id
  · unfold computeBalances
    rw [List.map_map]
    exact List.map_id g.members
  · intro e he hp
    unfold internalBalances
    rw [mem_bkeys_foldl_applyExpense]
    exact Or.inr ⟨e, he, by simp [refIds, hp]⟩

/-- C5 (witness): totality facts at concrete groups, including the tracked
unknown payer `"X"` of `gUnknownZero`. -/
theorem computeBalances_total_witness :
    computeBalances (⟨[], []⟩ : Group) = [] ∧
    (∀ r ∈ computeBalances (⟨[mA], []⟩ : Group), r.balance = 0) ∧
    (computeBalances gUnknownZero).map (fun r => r.member)
      = gUnknownZero.members ∧
    "X" ∈ bkeys (internalBalances gUnknownZero) := by
  refine ⟨(computeBalances_total ⟨[], []⟩).1 rfl,
    (computeBalances_total ⟨[mA], []⟩).2.1 rfl,
    (computeBalances_total gUnknownZero).2.2.1,
    (computeBalances_total gUnknownZero).2.2.2
      ⟨"e1", 10, "X", [], some SplitMode.equal, none⟩
      (List.mem_cons_self _ _) (by decide)⟩

/-- C8: for every Group, `computeBalances` returns one row per member, in
the order of `group.members`; and a member whose id no expense references
(as payer, in `splitBetween`, or as a `splitAmounts` key) has balance `0`. -/
theorem balance_rows_shape (g : Group) :
    (computeBalances g).map (fun r => r.member) = g.members ∧
    ∀ m ∈ g.members,
      (∀ e ∈ g.expenses, ¬ m.id = e.paidBy ∧ m.id ∉ e.splitBetween ∧
        m.id ∉ (e.splitAmounts.getD []).map (fun kv => kv.1)) →
      ∀ r ∈ computeBalances g, r.member = m → r.balance = 0 := by
  constructor
  · unfold computeBalances
    rw [List.map_map]
    exact List.map_id g.members
  · intro m _hm href r hr hrm
    rcases List.mem_map.mp hr with ⟨m2, hm2, hmr⟩
    have hmm : m2 = m := by
      rw [← hmr] at hrm
      exact hrm
    rw [← hmr]
    show bget (internalBalances g) m2.id = 0
    rw [hmm]
    apply bget_internal_untouched
    intro e he
    rcases href e he with ⟨h1, h2, h3⟩
    exact not_mem_refIds e m.id h1 h2 h3

/-- C8 (witness): in `gShape`, member `B` is referenced by no expense; the
rows keep the member order and `B`'s row balance is forced to 0. -/
theorem balance_rows_shape_witness :
    (computeBalances gShape).map (fun r => r.member) = gShape.members ∧
    ∀ r ∈ computeBalances gShape, r.member = mB → r.balance = 0 :=
  ⟨(balance_rows_shape gShape).1,
   (balance_rows_shape gShape).2 mB (by decide) (by decide)⟩

end TripSplit
